import Mathlib

/-!
# Verification of the stackmuncher analysis pipeline and report algebra

Shallow embedding of the stackmuncher sources:
* `src/stackmuncher_lib/src/muncher.rs` — the `Muncher` rule bundle and its loader;
* `src/stackmuncher_lib/src/processors/mod.rs` — the per-file line classifier;
* `src/stackmuncher/src/report.rs` — the `Report` structure and its merge algebra.

External collaborators (the `regex` crate, the hashers, the git object store and
the text decoders) are modelled as oracle parameters; `Tech` and the keyword
counter set live in `tech.rs`/`kwc.rs`, which are not part of the sources given,
and are modelled from the specification where needed (marked in doc comments).

Rust `HashSet`s are modelled as lists whose membership/insert operations use the
element equality of the corresponding Rust type; `usize`/`u64` counters are
modelled as `Nat` (they only ever grow by small increments), `i64` commit epochs
as `Int`.
-/

namespace Stm

/-! ## Keyword counter set (KWC)

Modelled from the spec: `kwc.rs` is not among the given sources.  A counter set
is a set of `(token, type?, count)` entries keyed on `token`; incrementing an
entry whose token already exists adds the counts, otherwise inserts. -/

structure KeywordCounter where
  k : String
  t : Option String
  c : Nat
deriving DecidableEq

/-- Modelled from the spec: `KeywordCounterSet::increment_counters` of `kwc.rs`
(not in the given sources).  If the set contains an entry with the same token,
replace it with a copy whose count is the sum; otherwise insert the new entry. -/
def increment_counters : List KeywordCounter → KeywordCounter → List KeywordCounter
  | [], n => [n]
  | e :: rest, n =>
    if e.k = n.k then { e with c := e.c + n.c } :: rest
    else e :: increment_counters rest n

/-- Total count carried by a token inside a counter set (abstraction used by the
merge-algebra proofs). -/
def kwcCnt (s : List KeywordCounter) (key : String) : Nat :=
  ((s.filter (fun e => e.k = key)).map (fun e => e.c)).sum

/-- `HashSet` insertion for element types whose equality is plain structural
equality (strings): inserting a present element leaves the set unchanged. -/
def hsInsert {α : Type} [DecidableEq α] (l : List α) (a : α) : List α :=
  if a ∈ l then l else a :: l

/-! ## Compiled patterns

The `regex` crate is external: a compiled pattern is modelled as an oracle
giving its match predicate and the tokens it captures on a line (first capture
group, or the whole match when there is no group). -/

structure Rx where
  isMatch : String → Bool
  captures : String → List String

/-- `match_line` of `processors/mod.rs`: true if there is a regex list and at
least one member matches the line. -/
def match_line (regex : Option (List Rx)) (line : String) : Bool :=
  match regex with
  | some v => v.any (fun r => r.isMatch line)
  | none => false

/-! ## Muncher (`muncher.rs`)

The struct carries the rule sources and the compiled lists.  Compilation of a
single pattern string is an oracle `compile : String → Option R` (the `regex`
crate); the 64-bit rule hash is an oracle over the parsed struct
(`DefaultHasher`). -/

structure Muncher (R : Type) where
  muncher_name : String
  language : String
  keywords : Option (List String)
  bracket_only : Option (List String)
  line_comments : Option (List String)
  inline_comments : Option (List String)
  doc_comments : Option (List String)
  block_comments_start : Option (List String)
  block_comments_end : Option (List String)
  refs : Option (List String)
  packages : Option (List String)
  bracket_only_regex : Option (List R) := none
  line_comments_regex : Option (List R) := none
  inline_comments_regex : Option (List R) := none
  doc_comments_regex : Option (List R) := none
  block_comments_start_regex : Option (List R) := none
  block_comments_end_regex : Option (List R) := none
  refs_regex : Option (List R) := none
  packages_regex : Option (List R) := none
  blank_line_regex : Option (List R) := none
  keywords_regex : Option (List R) := none
  brand_new : Bool := false
  muncher_hash : Nat := 0

namespace Muncher

/-- `Muncher::add_regex_to_list`: try to compile `regex`; on failure return the
list unchanged together with `false`; on success push the compiled regex
(creating the vector on first insert) and return `true`. -/
def add_regex_to_list {R : Type} (compile : String → Option R)
    (list : Option (List R)) (regex : String) : Option (List R) × Bool :=
  match compile regex with
  | none => (list, false)
  | some r => (some ((list.getD []) ++ [r]), true)

/-- One `if let Some(v) = ... { for s in v { success &= add_regex_to_list } }`
block of `compile_all_regex`: fold the sources into the compiled list, and-ing
the per-pattern success flags into the accumulator flag. -/
def compileList {R : Type} (compile : String → Option R)
    (src : Option (List String)) (dst : Option (List R)) (flag : Bool) :
    Option (List R) × Bool :=
  match src with
  | none => (dst, flag)
  | some v =>
    v.foldl (fun acc s =>
      let (l, ok) := add_regex_to_list compile acc.1 s
      (l, acc.2 && ok)) (dst, flag)

/-- The keywords block of `compile_all_regex` (`muncher.rs` lines 143–147): the
result of `add_regex_to_list` is *not* and-ed into `compilation_success`. -/
def compileKeywordsList {R : Type} (compile : String → Option R)
    (src : Option (List String)) (dst : Option (List R)) : Option (List R) :=
  match src with
  | none => dst
  | some v => v.foldl (fun acc s => (add_regex_to_list compile acc s).1) dst

/-- `Muncher::compile_all_regex`: compile every rule list, collecting a single
success flag; append the blank-line pattern; fail iff the flag was reset. -/
def compile_all_regex {R : Type} (compile : String → Option R)
    (m : Muncher R) : Except Unit (Muncher R) :=
  let (bracket_only_regex, f) := compileList compile m.bracket_only m.bracket_only_regex true
  let (line_comments_regex, f) := compileList compile m.line_comments m.line_comments_regex f
  let (inline_comments_regex, f) := compileList compile m.inline_comments m.inline_comments_regex f
  let (doc_comments_regex, f) := compileList compile m.doc_comments m.doc_comments_regex f
  let (block_comments_start_regex, f) := compileList compile m.block_comments_start m.block_comments_start_regex f
  let (block_comments_end_regex, f) := compileList compile m.block_comments_end m.block_comments_end_regex f
  let (refs_regex, f) := compileList compile m.refs m.refs_regex f
  let (packages_regex, f) := compileList compile m.packages m.packages_regex f
  let keywords_regex := compileKeywordsList compile m.keywords m.keywords_regex
  let (blank_line_regex, fb) := add_regex_to_list compile m.blank_line_regex "^\\s*$"
  let compilation_success := f && fb
  if compilation_success then
    .ok { m with
      bracket_only_regex, line_comments_regex, inline_comments_regex,
      doc_comments_regex, block_comments_start_regex, block_comments_end_regex,
      refs_regex, packages_regex, keywords_regex, blank_line_regex }
  else
    .error ()

/-- `Muncher::new` on the already-parsed rule struct (serde parsing is outside
the model): set the name and `brand_new`, record the rule hash computed by the
`hashFn` oracle over the sources, then compile; return `none` if compilation
reported failure. -/
def new {R : Type} (compile : String → Option R) (hashFn : Muncher R → Nat)
    (conf : Muncher R) (muncher_name : String) : Option (Muncher R) :=
  let conf := { conf with muncher_name := muncher_name, brand_new := true }
  let conf := { conf with muncher_hash := hashFn conf }
  match compile_all_regex compile conf with
  | .error _ => none
  | .ok conf => some conf

end Muncher

/-! ## Tech (`tech.rs` is not among the given sources)

The field set is taken from the literal struct expression in
`processors/mod.rs` (`process_file` builds the blank record); multisets are
counter sets, commit coordinates are optional.  `history` is an optional
payload never touched by the embedded operations; its element type is
irrelevant here and collapsed to `Unit`. -/

structure Tech where
  language : String
  muncher_name : String
  file_name : Option String
  commit_sha1 : Option String
  commit_date_epoch : Option Int
  commit_date_iso : Option String
  files : Nat
  total_lines : Nat
  code_lines : Nat
  line_comments : Nat
  block_comments : Nat
  docs_comments : Nat
  inline_comments : Nat
  blank_lines : Nat
  bracket_only_lines : Nat
  keywords : List KeywordCounter
  refs : List KeywordCounter
  refs_kw : Option (List KeywordCounter)
  pkgs : List KeywordCounter
  pkgs_kw : Option (List KeywordCounter)
  muncher_hash : Nat
  history : Option Unit
deriving DecidableEq

namespace Tech

/-- Modelled from the spec: the `PartialEq`/`Hash` implementation of `Tech` in
`tech.rs` (not in the given sources).  Two `Tech` values match for merge when
their identities agree — same language, muncher and file, ignoring commit
coordinates and counts (§4.G: "equal-identity entry (same
language+muncher+file, ignoring commit)"). -/
def identityEq (a b : Tech) : Bool :=
  a.language = b.language ∧ a.muncher_name = b.muncher_name ∧ a.file_name = b.file_name

/-- Modelled from the spec: `Tech::reset_file_and_commit_info` of `tech.rs`
(not in the given sources) — strip `file_name`, the commit coordinates and
`muncher_name` before folding into a per-language aggregate (§4.G). -/
def reset_file_and_commit_info (t : Tech) : Tech :=
  { t with muncher_name := "", file_name := none, commit_sha1 := none,
           commit_date_epoch := none, commit_date_iso := none }

/-- Identifier characters used when deriving the keyword summaries. -/
def isIdentChar (c : Char) : Bool := c.isAlphanum || c = '_'

/-- Split a token into maximal runs of identifier characters. -/
def splitWordsGo : List Char → List Char → List String
  | [], acc => if acc.isEmpty then [] else [String.mk acc.reverse]
  | c :: cs, acc =>
    if isIdentChar c then splitWordsGo cs (c :: acc)
    else if acc.isEmpty then splitWordsGo cs []
    else String.mk acc.reverse :: splitWordsGo cs []

def splitWords (s : String) : List String := splitWordsGo s.data []

/-- Modelled from the spec: `Tech::new_kw_summary` of `tech.rs` (not in the
given sources) — derive an optional summary multiset from `refs`/`pkgs` by
splitting every token on non-identifier characters and recounting the words
(each word weighted by the entry count); absent when the input is empty. -/
def new_kw_summary (refs : List KeywordCounter) : Option (List KeywordCounter) :=
  if refs.isEmpty then none
  else some (refs.foldl (fun acc e =>
    (splitWords e.k).foldl (fun acc w => increment_counters acc ⟨w, none, e.c⟩) acc) [])

/-- Modelled from the spec: the token harvesting of `tech.rs` (not in the given
sources) — for every pattern of the list, insert each captured token into the
accumulator counter set with count 1 (§4.C step 8). -/
def countTokens (regex : Option (List Rx)) (line : String)
    (acc : List KeywordCounter) : List KeywordCounter :=
  match regex with
  | none => acc
  | some v =>
    v.foldl (fun acc r =>
      (r.captures line).foldl (fun acc tok => increment_counters acc ⟨tok, none, 1⟩) acc) acc

/-- `Tech::count_refs` (modelled from the spec, `tech.rs` not given). -/
def count_refs (t : Tech) (regex : Option (List Rx)) (line : String) : Tech :=
  { t with refs := countTokens regex line t.refs }

/-- `Tech::count_pkgs` (modelled from the spec, `tech.rs` not given). -/
def count_pkgs (t : Tech) (regex : Option (List Rx)) (line : String) : Tech :=
  { t with pkgs := countTokens regex line t.pkgs }

/-- `Tech::count_keywords` (modelled from the spec, `tech.rs` not given). -/
def count_keywords (t : Tech) (regex : Option (List Rx)) (line : String) : Tech :=
  { t with keywords := countTokens regex line t.keywords }

/-- The stem of a tree file: its basename without the final extension. -/
def fileStem (f : String) : String :=
  let base := (f.splitOn "/").getLastD f
  match (base.splitOn ".").head? with
  | some s => s
  | none => base

/-- Modelled from the spec: `Tech::remove_local_imports` of `tech.rs` (not in
the given sources) — when a tree-files hint is supplied, drop from `refs` every
token equal to a member of the hint or to a member's basename-without-extension
(§4.C post-processing). -/
def remove_local_imports (t : Tech) (all_tree_files : Option (List String)) : Tech :=
  match all_tree_files with
  | none => t
  | some files =>
    { t with refs := t.refs.filter (fun e =>
        ¬ files.any (fun f => f = e.k || fileStem f = e.k)) }

end Tech

/-! ## Newline splitting (`get_file_lines`)

`get_file_lines` turns the decoded text into lines with Rust's `str::lines()`.
That iterator is `split_inclusive('\n')` followed by stripping one trailing
`'\n'` and then one trailing `'\r'` from each chunk; the model mirrors that
structure over the character list of the decoded string. -/

/-- `split_inclusive('\n')`: split into chunks each of which ends with `'\n'`
except possibly the last; the empty input yields no chunk. -/
def splitInclusiveNl : List Char → List (List Char)
  | [] => []
  | c :: cs =>
    if c = '\n' then [c] :: splitInclusiveNl cs
    else
      match splitInclusiveNl cs with
      | [] => [[c]]
      | g :: gs => (c :: g) :: gs

/-- Strip one trailing `'\n'`, and then one trailing `'\r'` only if the `'\n'`
was present — operating on the reversed chunk. -/
def stripNlCrRev : List Char → List Char
  | '\n' :: '\r' :: rest => rest
  | '\n' :: rest => rest
  | l => l

/-- The per-chunk map of Rust's `Lines` iterator. -/
def linesMap (l : List Char) : List Char := (stripNlCrRev l.reverse).reverse

/-- Rust's `str::lines()` over the characters of the decoded text: the line
sequence handed to the classifier by `get_file_lines`. -/
def rustLines (cs : List Char) : List String :=
  (splitInclusiveNl cs).map (fun g => String.mk (linesMap g))

/-- Modelled from the spec: the newline-splitting described by §4.B, as a
scanner over the text.  `'\n'` terminates a line, `'\r'` immediately followed
by `'\n'` terminates a line, and a lone `'\r'` terminates a line exactly when
`loneCR` is set (the spec claims it does); a trailing empty line is dropped
(the final accumulator is emitted only when nonempty). -/
def specSplitGo (loneCR : Bool) : List Char → List Char → List String
  | [], acc => if acc.isEmpty then [] else [String.mk acc.reverse]
  | '\n' :: cs, acc => String.mk acc.reverse :: specSplitGo loneCR cs []
  | '\r' :: '\n' :: cs, acc => String.mk acc.reverse :: specSplitGo loneCR cs []
  | '\r' :: cs, acc =>
    if loneCR then String.mk acc.reverse :: specSplitGo loneCR cs []
    else specSplitGo loneCR cs ('\r' :: acc)
  | c :: cs, acc => specSplitGo loneCR cs (c :: acc)

/-- The newline splitting claimed by the spec (§4.B): separators `\n`, `\r\n`
and a lone `\r`; trailing empty line dropped iff the text ends with one. -/
def specLines (s : String) : List String := specSplitGo true s.data []

/-- `get_file_lines` of `processors/mod.rs`.  The blob read and the UTF-8 /
WINDOWS-1252 decoding are external; `decode try_ansi` is the result of reading
the blob and decoding it with the requested decoder (`none` when the blob
cannot be read or the bytes cannot be decoded).  On success the decoded text is
split into lines with `str::lines()`. -/
def get_file_lines (decode : Bool → Option String) (try_ansi : Bool) :
    Option (List String) :=
  match decode try_ansi with
  | none => none
  | some s => some (rustLines s.data)

/-! ## The per-line classifier (`process_file`) -/

/-- One iteration of the `for line in lines` loop of `process_file`: classify
the line (first matching class wins), update the counters, harvest tokens on
code lines, and thread the `inside_block_comment` state. -/
def process_line (rules : Muncher Rx) (st : Bool × Tech)
    (line : String) : Bool × Tech :=
  let (inside_block_comment, tech) := st
  if inside_block_comment then
    let tech := { tech with block_comments := tech.block_comments + 1 }
    if match_line rules.block_comments_end_regex line then (false, tech)
    else (true, tech)
  else if match_line rules.block_comments_start_regex line then
    let tech := { tech with block_comments := tech.block_comments + 1 }
    if ¬ match_line rules.block_comments_end_regex line then (true, tech)
    else (false, tech)
  else if match_line rules.doc_comments_regex line then
    (false, { tech with docs_comments := tech.docs_comments + 1 })
  else if match_line rules.line_comments_regex line then
    (false, { tech with line_comments := tech.line_comments + 1 })
  else if match_line rules.inline_comments_regex line then
    (false, { tech with inline_comments := tech.inline_comments + 1 })
  else if match_line rules.bracket_only_regex line then
    (false, { tech with bracket_only_lines := tech.bracket_only_lines + 1 })
  else if match_line rules.blank_line_regex line then
    (false, { tech with blank_lines := tech.blank_lines + 1 })
  else
    let tech := { tech with code_lines := tech.code_lines + 1 }
    let tech := tech.count_refs rules.refs_regex line
    let tech := tech.count_pkgs rules.packages_regex line
    let tech := tech.count_keywords rules.keywords_regex line
    (false, tech)

/-- The blank `Tech` built at the top of `process_file`. -/
def blankTech (rules : Muncher Rx) (file_name commit_sha1 : String)
    (commit_date_epoch : Int) (commit_date_iso : String) : Tech :=
  { language := rules.language
    muncher_name := rules.muncher_name
    file_name := some file_name
    commit_sha1 := some commit_sha1
    commit_date_epoch := some commit_date_epoch
    commit_date_iso := some commit_date_iso
    files := 1
    total_lines := 0
    code_lines := 0
    line_comments := 0
    block_comments := 0
    docs_comments := 0
    inline_comments := 0
    blank_lines := 0
    bracket_only_lines := 0
    keywords := []
    refs := []
    refs_kw := none
    pkgs := []
    pkgs_kw := none
    muncher_hash := rules.muncher_hash
    history := none }

/-- The nonempty-file tail of `process_file`: set `total_lines`, run the
classifier loop over every line threading the `inside_block_comment` flag, and
strip local imports from `refs`. -/
def classifyLines (rules : Muncher Rx) (t0 : Tech) (lines : List String)
    (all_tree_files : Option (List String)) : Tech :=
  ((lines.foldl (process_line rules)
    (false, { t0 with total_lines := lines.length })).2).remove_local_imports
    all_tree_files

/-- `process_file` of `processors/mod.rs`.  `decode` is the external blob-read
and text-decode oracle (argument of `get_file_lines`); everything else follows
the source: build the blank record, try a UTF decode then an ANSI decode,
return the blank record for unreadable/undecodable or empty files, otherwise
set `total_lines`, run the classifier over every line and strip local imports
from `refs`. -/
def process_file (rules : Muncher Rx) (file_name _blob_sha1 : String)
    (commit_sha1 : String) (commit_date_epoch : Int) (commit_date_iso : String)
    (decode : Bool → Option String) (all_tree_files : Option (List String)) :
    Except String Tech :=
  let tech := blankTech rules file_name commit_sha1 commit_date_epoch commit_date_iso
  match (match get_file_lines decode false with
    | some v => some v
    | none => get_file_lines decode true) with
  | none => .ok tech
  | some lines =>
    if lines.length = 0 then .ok tech
    else .ok (classifyLines rules tech lines all_tree_files)

/-! ## Report (`report.rs`)

All fields of the struct are carried; the element type of `contributors` is
collapsed to `String` (none of the embedded operations look inside it).  The
UUID and clock used by `Report::new` are external and modelled as empty
strings. -/

structure Report where
  tech : List Tech
  per_file_tech : List Tech
  timestamp : String
  unprocessed_file_names : List String
  unknown_file_types : List KeywordCounter
  github_user_name : String
  github_repo_name : String
  remote_url_hashes : Option (List String)
  report_id : String
  report_s3_name : String
  report_commit_sha1 : Option String
  log_hash : Option String
  reports_included : List String
  git_ids_included : List String
  contributors : Option (List String)
  contributor_git_ids : Option (List String)
  date_init : Option String
  date_head : Option String
  tree_files : Option (List String)
  is_single_commit : Bool
  last_commit_author : Option String
deriving DecidableEq

namespace Report

/-- `Report::new()` with the external UUID/clock collapsed to empty strings. -/
def blank : Report :=
  { tech := [], per_file_tech := [], timestamp := "",
    unprocessed_file_names := [], unknown_file_types := [],
    github_user_name := "", github_repo_name := "", remote_url_hashes := none,
    report_id := "", report_s3_name := "", report_commit_sha1 := none,
    log_hash := none, reports_included := [], git_ids_included := [],
    contributors := none, contributor_git_ids := none, date_init := none,
    date_head := none, tree_files := none, is_single_commit := false,
    last_commit_author := none }

/-- The in-place accumulation of `merge_tech_record` when the incoming record
matches an existing aggregate: add the numeric totals, KWC-merge `keywords`,
`refs` and `pkgs`, and merge the optional keyword summaries when the incoming
side is populated (initializing the master side on first touch). -/
def addTech (m t : Tech) : Tech :=
  { m with
    docs_comments := m.docs_comments + t.docs_comments
    files := m.files + t.files
    inline_comments := m.inline_comments + t.inline_comments
    line_comments := m.line_comments + t.line_comments
    total_lines := m.total_lines + t.total_lines
    blank_lines := m.blank_lines + t.blank_lines
    block_comments := m.block_comments + t.block_comments
    bracket_only_lines := m.bracket_only_lines + t.bracket_only_lines
    code_lines := m.code_lines + t.code_lines
    keywords := t.keywords.foldl increment_counters m.keywords
    refs := t.refs.foldl increment_counters m.refs
    pkgs := t.pkgs.foldl increment_counters m.pkgs
    refs_kw :=
      (match t.refs_kw with
      | none => m.refs_kw
      | some inc => some (inc.foldl increment_counters (m.refs_kw.getD [])))
    pkgs_kw :=
      (match t.pkgs_kw with
      | none => m.pkgs_kw
      | some inc => some (inc.foldl increment_counters (m.pkgs_kw.getD []))) }

/-- The `HashSet<Tech>` take-or-insert of `merge_tech_record`, on the list
model: find the entry matching the (already reset) record's identity, add the
record onto it, or insert the record when no identity matches. -/
def mergeTechInto : List Tech → Tech → List Tech
  | [], t => [t]
  | m :: rest, t =>
    if Tech.identityEq m t then addTech m t :: rest
    else m :: mergeTechInto rest t

/-- `Report::merge_tech_record`: reset the file/commit identity of the incoming
record, then add it onto the matching per-language aggregate (or insert it). -/
def merge_tech_record (r : Report) (tech : Tech) : Report :=
  { r with tech := mergeTechInto r.tech tech.reset_file_and_commit_info }

/-- The per-record normalization of step one of `Report::merge`: recompute the
keyword summaries from `refs`/`pkgs` and clear the muncher name so that
munchers of one language combine. -/
def normalizeTech (tech : Tech) : Tech :=
  { tech with
    refs_kw := Tech.new_kw_summary tech.refs
    pkgs_kw := Tech.new_kw_summary tech.pkgs
    muncher_name := "" }

/-- The date-of-last-commit update of `Report::merge`: take the other report's
`date_head` when the master has none (warn-only in the source) or when it is
newer by string comparison. -/
def mergeDateHead (m : Report) (other_date_head : Option String) : Report :=
  match m.date_head, other_date_head with
  | none, _ => { m with date_head := other_date_head }
  | some dh, some odh => if dh < odh then { m with date_head := some odh } else m
  | some _, none => m

/-- The date-of-first-commit update of `Report::merge` (symmetric to
`mergeDateHead`, keeping the earlier date). -/
def mergeDateInit (m : Report) (other_date_init : Option String) : Report :=
  match m.date_init, other_date_init with
  | none, _ => { m with date_init := other_date_init }
  | some di, some odi => if odi < di then { m with date_init := some odi } else m
  | some _, none => m

/-- The contributor-id union of `Report::merge`: when the other report carries
ids, initialize the master set if absent and insert every id. -/
def mergeContributorIds (m : Report) (other_ids : Option (List String)) : Report :=
  match other_ids with
  | none => m
  | some ids =>
    { m with contributor_git_ids :=
        (some (ids.foldl hsInsert (m.contributor_git_ids.getD []))) }

/-- `Report::merge`.  Step one normalizes the other report's tech records and
re-folds them through `merge_tech_record` on a fresh report.  A missing master
returns the other report with `unprocessed_file_names` cleared; otherwise the
tech records, the unknown file types, the other report's S3 name, the
commit-date range and the contributor ids are merged into the master. -/
def merge (merge_into : Option Report) (other_report : Report) : Option Report :=
  let new_rep_tech := other_report.tech.foldl (fun acc tech =>
      acc.merge_tech_record (normalizeTech tech))
    Report.blank
  let other_report := { other_report with tech := new_rep_tech.tech }
  match merge_into with
  | none => some { other_report with unprocessed_file_names := [] }
  | some m =>
    let m := other_report.tech.foldl merge_tech_record m
    let m := { m with unknown_file_types :=
      other_report.unknown_file_types.foldl increment_counters m.unknown_file_types }
    let m :=
      if other_report.report_s3_name.isEmpty then m
      else { m with reports_included := hsInsert m.reports_included other_report.report_s3_name }
    let m := mergeDateHead m other_report.date_head
    let m := mergeDateInit m other_report.date_init
    let m := mergeContributorIds m other_report.contributor_git_ids
    some m

/-- Rust's derived `>` on `Option<i64>` (`None` is smaller than every
`Some`), used on `commit_date_epoch`. -/
def epochGt : Option Int → Option Int → Bool
  | some a, some b => a > b
  | some _, none => true
  | none, _ => false

/-- `HashSet<Tech>` insertion: `Tech` equality is `Tech.identityEq`; inserting
an identity already present keeps the existing entry. -/
def hsInsertTech (l : List Tech) (t : Tech) : List Tech :=
  if l.any (fun e => Tech.identityEq e t) then l else t :: l

/-- The body of the `'outer` loop of `merge_contributor_reports`: skip the
incoming record when an equal-identity entry with a greater commit date exists,
otherwise retain only entries that differ in identity or are newer, and insert
the incoming record. -/
def mergeContributorStep (pft : List Tech) (tech : Tech) : List Tech :=
  if pft.any (fun e =>
      Tech.identityEq e tech && epochGt e.commit_date_epoch tech.commit_date_epoch) then
    pft
  else
    hsInsertTech
      (pft.filter (fun t =>
        !(Tech.identityEq t tech) || epochGt t.commit_date_epoch tech.commit_date_epoch))
      tech

/-- `Report::merge_contributor_reports`: fold the other report's per-file tech
through the most-recent-commit-wins step and record the contributor id. -/
def merge_contributor_reports (self : Report) (other_report : Report)
    (contributor_git_id : String) : Report :=
  { self with
    per_file_tech := other_report.per_file_tech.foldl mergeContributorStep self.per_file_tech
    git_ids_included := hsInsert self.git_ids_included contributor_git_id }

/-- `Report::recompute_tech_section`: clear `tech` and re-fold every
`per_file_tech` record through `merge_tech_record`. -/
def recompute_tech_section (r : Report) : Report :=
  r.per_file_tech.foldl merge_tech_record { r with tech := [] }

/-- The suffix of the character list starting at its final `'.'`
(`file_name.rfind(".")` followed by `split_at`). -/
def lastDotSuffix : List Char → Option (List Char)
  | [] => none
  | c :: cs =>
    match lastDotSuffix cs with
    | some suf => some suf
    | none => if c = '.' then some (c :: cs) else none

/-- `Report::add_unprocessed_file`: always insert the file name into
`unprocessed_file_names`; when the name contains a `'.'`, take the suffix from
the final `'.'` and, unless it contains a path separator, count the suffix
without its leading dots into `unknown_file_types`. -/
def add_unprocessed_file (r : Report) (file_name : String) : Report :=
  let r := { r with unprocessed_file_names := hsInsert r.unprocessed_file_names file_name }
  match lastDotSuffix file_name.data with
  | none => r
  | some ext1 =>
    if ¬ ext1.isEmpty ∧ ¬ ext1.contains '/' ∧ ¬ ext1.contains '\\' then
      { r with unknown_file_types :=
          (increment_counters r.unknown_file_types
            ⟨String.mk (ext1.dropWhile (fun c => c = '.')), none, 1⟩) }
    else r

end Report


/-! ## Auxiliary predicates and concrete instances for the claim theorems -/

/-- Sum of the seven line-class counters of a `Tech` record. -/
def lineClassSum (t : Tech) : Nat :=
  t.code_lines + t.blank_lines + t.bracket_only_lines + t.line_comments +
    t.inline_comments + t.docs_comments + t.block_comments

/-- Distinct identities, the `HashSet<Tech>` well-formedness of
`per_file_tech`: no two entries of the list match for merge. -/
def PftNodup (l : List Tech) : Prop :=
  l.Pairwise (fun a b => Tech.identityEq a b = false)

instance (l : List Tech) : Decidable (PftNodup l) := by
  unfold PftNodup
  infer_instance

/-- The invariant carried through the `'outer` loop of
`merge_contributor_reports`: the accumulator has pairwise-distinct identities,
every entry comes from the original `self` set or from the processed prefix,
every entry is at least as recent as every same-identity candidate seen so far,
and every identity seen so far survives. -/
def MergeInv (self0 S P : List Tech) : Prop :=
  PftNodup S ∧
  (∀ t ∈ S, t ∈ self0 ∨ t ∈ P) ∧
  (∀ t ∈ S, ∀ c, (c ∈ self0 ∨ c ∈ P) → Tech.identityEq c t = true →
    Report.epochGt c.commit_date_epoch t.commit_date_epoch = false) ∧
  (∀ c, (c ∈ self0 ∨ c ∈ P) → ∃ t ∈ S, Tech.identityEq t c = true)

/-- A compile oracle under which the single pattern `"("` fails to compile (as
it does under the `regex` crate) and every other pattern compiles to itself. -/
def c1Compile : String → Option String :=
  fun s => if s = "(" then none else some s

def c1Hash : Muncher String → Nat := fun _ => 0

/-- A parsed muncher whose only rule list is `keywords`, holding the
non-compiling pattern. -/
def c1SrcKeywords : Muncher String :=
  { muncher_name := "", language := "Rust", keywords := some ["("],
    bracket_only := none, line_comments := none, inline_comments := none,
    doc_comments := none, block_comments_start := none,
    block_comments_end := none, refs := none, packages := none }

/-- The same muncher with the non-compiling pattern moved to `bracket_only`. -/
def c1SrcBracket : Muncher String :=
  { c1SrcKeywords with keywords := none, bracket_only := some ["("] }

/-- A muncher with no compiled patterns at all (every line is a code line). -/
def c2wRules : Muncher Rx :=
  { muncher_name := "plain", language := "Plain", keywords := none,
    bracket_only := none, line_comments := none, inline_comments := none,
    doc_comments := none, block_comments_start := none,
    block_comments_end := none, refs := none, packages := none }

def c2wDecode : Bool → Option String :=
  fun try_ansi => if try_ansi then none else some "alpha\nbeta\n"

def c2wTech : Tech :=
  (process_file c2wRules "f.txt" "sha" "csha" 11 "iso" c2wDecode none).toOption.getD
    (blankTech c2wRules "f.txt" "csha" 11 "iso")

def c5wRules : Muncher Rx :=
  { c2wRules with
    block_comments_start_regex :=
      some [⟨fun l => ('/' :: '*' :: []).isPrefixOf l.data, fun _ => []⟩],
    block_comments_end_regex :=
      some [⟨fun l => ('/' :: '*' :: []).isPrefixOf l.data.reverse, fun _ => []⟩] }

def c5wTech : Tech := blankTech c5wRules "f.c" "csha" 3 "iso"

def c6wDecode : Bool → Option String := fun _ => none

def c7wDecode : Bool → Option String := fun _ => some "x\r\ny\nz"

/-- A minimal per-file record for the C3 witness (spec §8 scenario 5). -/
def mkFileTech (lang mn fn : String) (epoch : Int) : Tech :=
  { language := lang, muncher_name := mn, file_name := some fn,
    commit_sha1 := none, commit_date_epoch := some epoch,
    commit_date_iso := none, files := 1, total_lines := 0, code_lines := 0,
    line_comments := 0, block_comments := 0, docs_comments := 0,
    inline_comments := 0, blank_lines := 0, bracket_only_lines := 0,
    keywords := [], refs := [], refs_kw := none, pkgs := [], pkgs_kw := none,
    muncher_hash := 0, history := none }

def c3wSelf : Report :=
  { Report.blank with per_file_tech := [mkFileTech "Go" "go" "a.go" 100] }

def c3wOther : Report :=
  { Report.blank with per_file_tech := [mkFileTech "Go" "go" "a.go" 200] }

/-! ### Definitions for the merge-algebra claim (C4) -/

/-- `Report::merge` with a master present always yields a report; `merge2 x y`
is `Report::merge(Some(x), y)` — `x` the master accumulator, `y` the other
report. -/
def merge2 (x y : Report) : Report :=
  match Report.merge (some x) y with
  | some r => r
  | none => x

/-- Structural equality of two modelled `HashSet`s: same members. -/
def setEqv {α : Type} (A B : List α) : Prop :=
  (∀ x ∈ A, x ∈ B) ∧ (∀ x ∈ B, x ∈ A)

instance {α : Type} [DecidableEq α] (A B : List α) : Decidable (setEqv A B) := by
  unfold setEqv
  infer_instance

/-- Structural equality of two `Tech` aggregates on every field except the
derived summaries `refs_kw`/`pkgs_kw` and the muncher fingerprint
`muncher_hash`; the nested counter sets are compared as sets. -/
def techCoreEquiv (t u : Tech) : Prop :=
  t.language = u.language ∧ t.muncher_name = u.muncher_name ∧
  t.file_name = u.file_name ∧ t.commit_sha1 = u.commit_sha1 ∧
  t.commit_date_epoch = u.commit_date_epoch ∧
  t.commit_date_iso = u.commit_date_iso ∧ t.files = u.files ∧
  t.total_lines = u.total_lines ∧ t.code_lines = u.code_lines ∧
  t.line_comments = u.line_comments ∧ t.block_comments = u.block_comments ∧
  t.docs_comments = u.docs_comments ∧ t.inline_comments = u.inline_comments ∧
  t.blank_lines = u.blank_lines ∧ t.bracket_only_lines = u.bracket_only_lines ∧
  setEqv t.keywords u.keywords ∧ setEqv t.refs u.refs ∧
  setEqv t.pkgs u.pkgs ∧ t.history = u.history

instance (t u : Tech) : Decidable (techCoreEquiv t u) := by
  unfold techCoreEquiv
  infer_instance

/-- Set equality of two tech sections up to `techCoreEquiv` on the rows. -/
def techSetEquiv (A B : List Tech) : Prop :=
  (∀ t ∈ A, ∃ u ∈ B, techCoreEquiv t u) ∧ (∀ u ∈ B, ∃ t ∈ A, techCoreEquiv t u)

instance (A B : List Tech) : Decidable (techSetEquiv A B) := by
  unfold techSetEquiv
  infer_instance

/-- Well-formedness of a counter set as produced by the pipeline: pairwise
distinct tokens (the `HashSet` invariant), no `t` annotation, positive
counts. -/
def KwcWF (l : List KeywordCounter) : Prop :=
  l.Pairwise (fun a b => a.k ≠ b.k) ∧ ∀ e ∈ l, e.t = none ∧ 1 ≤ e.c

instance (l : List KeywordCounter) : Decidable (KwcWF l) := by
  unfold KwcWF
  infer_instance

/-- A per-language aggregate row as `recompute_tech_section` produces it: the
file, commit and muncher identity stripped, no commit history, and
well-formed counter sets. -/
def TechRowWF (t : Tech) : Prop :=
  t.muncher_name = "" ∧ t.file_name = none ∧ t.commit_sha1 = none ∧
  t.commit_date_epoch = none ∧ t.commit_date_iso = none ∧ t.history = none ∧
  KwcWF t.keywords ∧ KwcWF t.refs ∧ KwcWF t.pkgs

instance (t : Tech) : Decidable (TechRowWF t) := by
  unfold TechRowWF
  infer_instance

/-- Well-formedness of a tech section: reset-form rows, one row per
language. -/
def TechSetWF (A : List Tech) : Prop :=
  (∀ t ∈ A, TechRowWF t) ∧ A.Pairwise (fun a b => a.language ≠ b.language)

instance (A : List Tech) : Decidable (TechSetWF A) := by
  unfold TechSetWF
  infer_instance

/-- The invariants §4.F gives a freshly assembled project report, as far as
the merge laws need them: a well-formed tech section built by
`recompute_tech_section`, a well-formed extension counter set, and
`reports_included` holding exactly the report's own S3 name (when any). -/
def Assembled (r : Report) : Prop :=
  TechSetWF r.tech ∧ KwcWF r.unknown_file_types ∧
  r.reports_included = (if r.report_s3_name = "" then [] else [r.report_s3_name])

instance (r : Report) : Decidable (Assembled r) := by
  unfold Assembled
  infer_instance

/-- Sum of a numeric projection over the rows of one language (the abstraction
the merge laws are proved through; on a well-formed section it is the single
row's value). -/
def techSum (f : Tech → Nat) (A : List Tech) (lang : String) : Nat :=
  ((A.filter (fun t => t.language = lang)).map f).sum

/-- A language is present in a tech section. -/
def hasLang (A : List Tech) (lang : String) : Prop :=
  ∃ t ∈ A, t.language = lang

/-- A per-language aggregate row for the C4 reports. -/
def mkLangTech (lang : String) (refs : List KeywordCounter) : Tech :=
  { language := lang, muncher_name := "", file_name := none,
    commit_sha1 := none, commit_date_epoch := none, commit_date_iso := none,
    files := 1, total_lines := 1, code_lines := 1, line_comments := 0,
    block_comments := 0, docs_comments := 0, inline_comments := 0,
    blank_lines := 0, bracket_only_lines := 0, keywords := [], refs := refs,
    refs_kw := none, pkgs := [], pkgs_kw := none, muncher_hash := 0,
    history := none }

def c4a : Report :=
  { Report.blank with
    tech := [mkLangTech "Rust" [⟨"x", none, 1⟩]],
    report_s3_name := "u/a.report", reports_included := ["u/a.report"] }

def c4b : Report :=
  { Report.blank with
    tech := [mkLangTech "Go" []],
    report_s3_name := "u/b.report", reports_included := ["u/b.report"] }

def c4c : Report :=
  { Report.blank with
    report_s3_name := "u/c.report",
    reports_included := ["u/c.report"] }

/-! ## Counter-set lemmas for the merge algebra -/

theorem kwcCnt_nil (key : String) : kwcCnt [] key = 0 := rfl

theorem kwcCnt_cons (e : KeywordCounter) (s : List KeywordCounter) (key : String) :
    kwcCnt (e :: s) key = (if e.k = key then e.c else 0) + kwcCnt s key := by
  unfold kwcCnt
  rw [List.filter_cons]
  by_cases h : e.k = key
  · simp [h]
  · simp [h]

theorem kwcCnt_eq_zero (s : List KeywordCounter) (key : String)
    (h : ∀ b ∈ s, b.k ≠ key) : kwcCnt s key = 0 := by
  induction s with
  | nil => rfl
  | cons e rest ih =>
    rw [kwcCnt_cons, if_neg (h e (List.mem_cons_self e rest)),
      ih (fun b hb => h b (List.mem_cons_of_mem e hb))]

theorem kwcCnt_increment (s : List KeywordCounter) (n : KeywordCounter)
    (key : String) :
    kwcCnt (increment_counters s n) key =
      kwcCnt s key + (if n.k = key then n.c else 0) := by
  induction s with
  | nil =>
    show kwcCnt [n] key = kwcCnt [] key + _
    rw [kwcCnt_cons, kwcCnt_nil]
    omega
  | cons e rest ih =>
    unfold increment_counters
    by_cases h : e.k = n.k
    · rw [if_pos h, kwcCnt_cons, kwcCnt_cons]
      by_cases h2 : e.k = key
      · rw [if_pos h2, if_pos h2, if_pos (show n.k = key by rw [← h]; exact h2)]
        dsimp only
        omega
      · rw [if_neg h2, if_neg h2,
          if_neg (show ¬ n.k = key from fun hh => h2 (h.trans hh))]
        omega
    · rw [if_neg h, kwcCnt_cons, ih, kwcCnt_cons]
      omega

theorem kwcCnt_foldl (B A : List KeywordCounter) (key : String) :
    kwcCnt (B.foldl increment_counters A) key = kwcCnt A key + kwcCnt B key := by
  induction B generalizing A with
  | nil =>
    rw [List.foldl_nil, kwcCnt_nil]
    omega
  | cons e rest ih =>
    rw [List.foldl_cons, ih, kwcCnt_increment, kwcCnt_cons]
    omega

theorem increment_key_mem (s : List KeywordCounter) (n b : KeywordCounter)
    (hb : b ∈ increment_counters s n) : (∃ x ∈ s, b.k = x.k) ∨ b.k = n.k := by
  induction s with
  | nil =>
    right
    have : b = n := List.mem_singleton.mp hb
    rw [this]
  | cons e rest ih =>
    unfold increment_counters at hb
    by_cases h : e.k = n.k
    · rw [if_pos h] at hb
      rcases List.mem_cons.mp hb with hb | hb
      · exact Or.inl ⟨e, List.mem_cons_self e rest, by rw [hb]⟩
      · exact Or.inl ⟨b, List.mem_cons_of_mem e hb, rfl⟩
    · rw [if_neg h] at hb
      rcases List.mem_cons.mp hb with hb | hb
      · exact Or.inl ⟨e, List.mem_cons_self e rest, by rw [hb]⟩
      · rcases ih hb with ⟨x, hx, hbk⟩ | hbk
        · exact Or.inl ⟨x, List.mem_cons_of_mem e hx, hbk⟩
        · exact Or.inr hbk

theorem increment_entry_prop (s : List KeywordCounter) (n : KeywordCounter)
    (P : KeywordCounter → Prop) (hs : ∀ e ∈ s, P e) (hn : P n)
    (hsum : ∀ e, P e → P { e with c := e.c + n.c }) :
    ∀ x ∈ increment_counters s n, P x := by
  induction s with
  | nil =>
    intro x hx
    rw [List.mem_singleton.mp hx]
    exact hn
  | cons e rest ih =>
    intro x hx
    unfold increment_counters at hx
    by_cases h : e.k = n.k
    · rw [if_pos h] at hx
      rcases List.mem_cons.mp hx with hx | hx
      · rw [hx]
        exact hsum e (hs e (List.mem_cons_self e rest))
      · exact hs x (List.mem_cons_of_mem e hx)
    · rw [if_neg h] at hx
      rcases List.mem_cons.mp hx with hx | hx
      · rw [hx]
        exact hs e (List.mem_cons_self e rest)
      · exact ih (fun y hy => hs y (List.mem_cons_of_mem e hy)) x hx

theorem kwcWF_increment (s : List KeywordCounter) (n : KeywordCounter)
    (hs : KwcWF s) (hn : n.t = none) (hc : 1 ≤ n.c) :
    KwcWF (increment_counters s n) := by
  induction s with
  | nil =>
    exact ⟨List.pairwise_singleton _ n, by
      intro x hx
      rw [List.mem_singleton.mp hx]
      exact ⟨hn, hc⟩⟩
  | cons e rest ih =>
    obtain ⟨hp, hent⟩ := hs
    rw [List.pairwise_cons] at hp
    unfold increment_counters
    by_cases h : e.k = n.k
    · rw [if_pos h]
      constructor
      · rw [List.pairwise_cons]
        exact ⟨fun b hb => hp.1 b hb, hp.2⟩
      · intro x hx
        rcases List.mem_cons.mp hx with hx | hx
        · rw [hx]
          have h2 := hent e (List.mem_cons_self e rest)
          refine ⟨h2.1, ?_⟩
          have h3 := h2.2
          dsimp only
          omega
        · exact hent x (List.mem_cons_of_mem e hx)
    · rw [if_neg h]
      have ihh := ih ⟨hp.2, fun x hx => hent x (List.mem_cons_of_mem e hx)⟩
      constructor
      · rw [List.pairwise_cons]
        refine ⟨?_, ihh.1⟩
        intro b hb
        rcases increment_key_mem rest n b hb with ⟨x, hx, hbk⟩ | hbk
        · intro heq
          exact hp.1 x hx (heq.trans hbk)
        · intro heq
          exact h (heq.trans hbk)
      · intro x hx
        rcases List.mem_cons.mp hx with hx | hx
        · rw [hx]
          exact hent e (List.mem_cons_self e rest)
        · exact ihh.2 x hx

theorem kwcWF_foldl (B : List KeywordCounter) : ∀ A : List KeywordCounter,
    KwcWF A → (∀ e ∈ B, e.t = none ∧ 1 ≤ e.c) →
    KwcWF (B.foldl increment_counters A) := by
  induction B with
  | nil =>
    intro A hA _
    exact hA
  | cons e rest ih =>
    intro A hA hB
    rw [List.foldl_cons]
    exact ih _ (kwcWF_increment A e hA
        (hB e (List.mem_cons_self e rest)).1 (hB e (List.mem_cons_self e rest)).2)
      (fun x hx => hB x (List.mem_cons_of_mem e hx))

theorem kwcCnt_eq_of_mem (s : List KeywordCounter) (hs : KwcWF s)
    (e : KeywordCounter) (he : e ∈ s) : kwcCnt s e.k = e.c := by
  induction s with
  | nil => cases he
  | cons x rest ih =>
    obtain ⟨hp, hent⟩ := hs
    rw [List.pairwise_cons] at hp
    rw [kwcCnt_cons]
    rcases List.mem_cons.mp he with he | he
    · subst he
      rw [if_pos rfl, kwcCnt_eq_zero rest e.k
        (fun b hb => fun hh => hp.1 b hb hh.symm)]
      omega
    · rw [if_neg (hp.1 e he),
        ih ⟨hp.2, fun y hy => hent y (List.mem_cons_of_mem x hy)⟩ he]
      omega

theorem exists_key_of_kwcCnt_pos (s : List KeywordCounter) (key : String)
    (h : kwcCnt s key ≠ 0) : ∃ e ∈ s, e.k = key := by
  induction s with
  | nil => exact absurd rfl h
  | cons x rest ih =>
    rw [kwcCnt_cons] at h
    by_cases hx : x.k = key
    · exact ⟨x, List.mem_cons_self x rest, hx⟩
    · rw [if_neg hx] at h
      rcases ih (by omega) with ⟨e, he, hk⟩
      exact ⟨e, List.mem_cons_of_mem x he, hk⟩

theorem kc_ext (a b : KeywordCounter) (h1 : a.k = b.k) (h2 : a.t = b.t)
    (h3 : a.c = b.c) : a = b := by
  cases a
  cases b
  simp_all

theorem kwc_subset_of_cnt (A B : List KeywordCounter) (hA : KwcWF A)
    (hB : KwcWF B) (h : ∀ key, kwcCnt A key = kwcCnt B key) :
    ∀ e ∈ A, e ∈ B := by
  intro e he
  have hcB : kwcCnt B e.k = e.c := by
    rw [← h]
    exact kwcCnt_eq_of_mem A hA e he
  have hc1 : 1 ≤ e.c := (hA.2 e he).2
  rcases exists_key_of_kwcCnt_pos B e.k (by omega) with ⟨e', he', hk⟩
  have hcB' : kwcCnt B e'.k = e'.c := kwcCnt_eq_of_mem B hB e' he'
  have heq : e' = e := by
    refine kc_ext e' e hk ((hB.2 e' he').1.trans (hA.2 e he).1.symm) ?_
    rw [← hcB', hk, hcB]
  rw [← heq]
  exact he'

theorem setEqv_of_kwcCnt (A B : List KeywordCounter) (hA : KwcWF A)
    (hB : KwcWF B) (h : ∀ key, kwcCnt A key = kwcCnt B key) : setEqv A B :=
  ⟨kwc_subset_of_cnt A B hA hB h,
    kwc_subset_of_cnt B A hB hA (fun key => (h key).symm)⟩

/-! ## Tech-section abstraction lemmas for the merge algebra -/

theorem identityEq_iff (a b : Tech) :
    Tech.identityEq a b = true ↔
      (a.language = b.language ∧ a.muncher_name = b.muncher_name ∧
        a.file_name = b.file_name) := by
  simp [Tech.identityEq]

theorem identityEq_refl (a : Tech) : Tech.identityEq a a = true := by
  simp [Tech.identityEq]

theorem identityEq_symm {a b : Tech} (h : Tech.identityEq a b = true) :
    Tech.identityEq b a = true := by
  rw [identityEq_iff] at *
  exact ⟨h.1.symm, h.2.1.symm, h.2.2.symm⟩

theorem identityEq_trans {a b c : Tech} (h1 : Tech.identityEq a b = true)
    (h2 : Tech.identityEq b c = true) : Tech.identityEq a c = true := by
  rw [identityEq_iff] at *
  exact ⟨h1.1.trans h2.1, h1.2.1.trans h2.2.1, h1.2.2.trans h2.2.2⟩

theorem epochGt_irrefl (x : Option Int) : Report.epochGt x x = false := by
  cases x with
  | none => rfl
  | some a => simp [Report.epochGt]

theorem epochGt_asymm {a b : Option Int} (h : Report.epochGt a b = true) :
    Report.epochGt b a = false := by
  cases a <;> cases b <;> simp_all [Report.epochGt]
  omega

theorem epochGt_le_trans {a b c : Option Int}
    (h1 : Report.epochGt a b = false) (h2 : Report.epochGt b c = false) :
    Report.epochGt a c = false := by
  cases a <;> cases b <;> cases c <;> simp_all [Report.epochGt]
  omega


theorem techSum_nil (f : Tech → Nat) (lang : String) : techSum f [] lang = 0 := rfl

theorem techSum_cons (f : Tech → Nat) (x : Tech) (A : List Tech) (lang : String) :
    techSum f (x :: A) lang =
      (if x.language = lang then f x else 0) + techSum f A lang := by
  unfold techSum
  rw [List.filter_cons]
  by_cases h : x.language = lang
  · simp [h]
  · simp [h]

theorem techSum_mergeTechInto (f : Tech → Nat)
    (hadd : ∀ m t, f (Report.addTech m t) = f m + f t)
    (A : List Tech) (t : Tech) (lang : String) :
    techSum f (Report.mergeTechInto A t) lang =
      techSum f A lang + (if t.language = lang then f t else 0) := by
  induction A with
  | nil =>
    show techSum f [t] lang = _
    rw [techSum_cons, techSum_nil]
    omega
  | cons m rest ih =>
    unfold Report.mergeTechInto
    by_cases h : Tech.identityEq m t = true
    · rw [if_pos h, techSum_cons, techSum_cons]
      have hml : m.language = t.language := ((identityEq_iff m t).mp h).1
      by_cases hl : m.language = lang
      · rw [show (Report.addTech m t).language = m.language from rfl, if_pos hl,
          if_pos hl, if_pos (show t.language = lang by rw [← hml]; exact hl), hadd]
        omega
      · rw [show (Report.addTech m t).language = m.language from rfl, if_neg hl,
          if_neg hl, if_neg (show ¬ t.language = lang from fun hh => hl (hml.trans hh))]
        omega
    · rw [if_neg h, techSum_cons, ih, techSum_cons]
      omega

theorem hasLang_cons (x : Tech) (A : List Tech) (lang : String) :
    hasLang (x :: A) lang ↔ x.language = lang ∨ hasLang A lang := by
  unfold hasLang
  constructor
  · rintro ⟨t, ht, hl⟩
    rcases List.mem_cons.mp ht with ht | ht
    · exact Or.inl (ht ▸ hl)
    · exact Or.inr ⟨t, ht, hl⟩
  · rintro (h | ⟨t, ht, hl⟩)
    · exact ⟨x, List.mem_cons_self x A, h⟩
    · exact ⟨t, List.mem_cons_of_mem x ht, hl⟩

theorem hasLang_mergeTechInto (A : List Tech) (t : Tech) (lang : String) :
    hasLang (Report.mergeTechInto A t) lang ↔ hasLang A lang ∨ t.language = lang := by
  induction A with
  | nil =>
    show hasLang [t] lang ↔ hasLang [] lang ∨ _
    rw [hasLang_cons]
    unfold hasLang
    simp
  | cons m rest ih =>
    unfold Report.mergeTechInto
    by_cases h : Tech.identityEq m t = true
    · rw [if_pos h]
      have hml : m.language = t.language := ((identityEq_iff m t).mp h).1
      rw [hasLang_cons, hasLang_cons,
        show (Report.addTech m t).language = m.language from rfl]
      constructor
      · rintro (h1 | h1)
        · exact Or.inl (Or.inl h1)
        · exact Or.inl (Or.inr h1)
      · rintro ((h1 | h1) | h1)
        · exact Or.inl h1
        · exact Or.inr h1
        · exact Or.inl (hml.trans h1)
    · rw [if_neg h, hasLang_cons, hasLang_cons, ih]
      tauto

theorem techSum_foldl_merge (f : Tech → Nat)
    (hadd : ∀ m t, f (Report.addTech m t) = f m + f t)
    (g : Tech → Tech) (hg : ∀ t, f (g t) = f t)
    (hgl : ∀ t, (g t).language = t.language) (L : List Tech) :
    ∀ (A : List Tech) (lang : String),
    techSum f (L.foldl (fun acc t => Report.mergeTechInto acc (g t)) A) lang =
      techSum f A lang + techSum f L lang := by
  induction L with
  | nil =>
    intro A lang
    rw [List.foldl_nil, techSum_nil]
    omega
  | cons t rest ih =>
    intro A lang
    rw [List.foldl_cons, ih, techSum_mergeTechInto f hadd, techSum_cons, hg, hgl]
    omega

theorem hasLang_foldl_merge (g : Tech → Tech)
    (hgl : ∀ t, (g t).language = t.language) (L : List Tech) :
    ∀ (A : List Tech) (lang : String),
    (hasLang (L.foldl (fun acc t => Report.mergeTechInto acc (g t)) A) lang ↔
      hasLang A lang ∨ hasLang L lang) := by
  induction L with
  | nil =>
    intro A lang
    rw [List.foldl_nil]
    unfold hasLang
    simp
  | cons t rest ih =>
    intro A lang
    rw [List.foldl_cons, ih, hasLang_mergeTechInto, hasLang_cons, hgl]
    tauto

theorem foldl_mtr (l : List Tech) : ∀ s : Report,
    l.foldl Report.merge_tech_record s =
      { s with tech := (l.foldl
          (fun L t => Report.mergeTechInto L t.reset_file_and_commit_info) s.tech) } := by
  induction l with
  | nil => intro s; rfl
  | cons t rest ih =>
    intro s
    rw [List.foldl_cons, ih]
    rfl

theorem foldl_mtr_g (g : Tech → Tech) (l : List Tech) : ∀ s : Report,
    l.foldl (fun acc t => acc.merge_tech_record (g t)) s =
      { s with tech := (l.foldl
          (fun L t => Report.mergeTechInto L (g t).reset_file_and_commit_info) s.tech) } := by
  induction l with
  | nil => intro s; rfl
  | cons t rest ih =>
    intro s
    rw [List.foldl_cons, ih]
    rfl

theorem mergeDateHead_fields (m : Report) (d : Option String) :
    (Report.mergeDateHead m d).tech = m.tech ∧
    (Report.mergeDateHead m d).unknown_file_types = m.unknown_file_types ∧
    (Report.mergeDateHead m d).reports_included = m.reports_included ∧
    (Report.mergeDateHead m d).report_s3_name = m.report_s3_name := by
  unfold Report.mergeDateHead
  repeat' split
  all_goals exact ⟨rfl, rfl, rfl, rfl⟩

theorem mergeDateInit_fields (m : Report) (d : Option String) :
    (Report.mergeDateInit m d).tech = m.tech ∧
    (Report.mergeDateInit m d).unknown_file_types = m.unknown_file_types ∧
    (Report.mergeDateInit m d).reports_included = m.reports_included ∧
    (Report.mergeDateInit m d).report_s3_name = m.report_s3_name := by
  unfold Report.mergeDateInit
  repeat' split
  all_goals exact ⟨rfl, rfl, rfl, rfl⟩

theorem mergeContributorIds_fields (m : Report) (ids : Option (List String)) :
    (Report.mergeContributorIds m ids).tech = m.tech ∧
    (Report.mergeContributorIds m ids).unknown_file_types = m.unknown_file_types ∧
    (Report.mergeContributorIds m ids).reports_included = m.reports_included ∧
    (Report.mergeContributorIds m ids).report_s3_name = m.report_s3_name := by
  unfold Report.mergeContributorIds
  repeat' split
  all_goals exact ⟨rfl, rfl, rfl, rfl⟩

set_option maxHeartbeats 1000000 in
theorem merge2_tech (a b : Report) :
    (merge2 a b).tech =
      (b.tech.foldl (fun L t => Report.mergeTechInto L
          (Report.normalizeTech t).reset_file_and_commit_info) []).foldl
        (fun L t => Report.mergeTechInto L t.reset_file_and_commit_info)
        a.tech := by
  unfold merge2 Report.merge
  dsimp only
  rw [foldl_mtr_g Report.normalizeTech, foldl_mtr]
  dsimp only
  rw [(mergeContributorIds_fields _ _).1, (mergeDateInit_fields _ _).1,
    (mergeDateHead_fields _ _).1]
  by_cases h : b.report_s3_name.isEmpty
  · rw [if_pos h]
    rfl
  · rw [if_neg h]
    rfl

set_option maxHeartbeats 1000000 in
theorem merge2_uft (a b : Report) :
    (merge2 a b).unknown_file_types =
      b.unknown_file_types.foldl increment_counters a.unknown_file_types := by
  unfold merge2 Report.merge
  dsimp only
  rw [foldl_mtr_g Report.normalizeTech, foldl_mtr]
  dsimp only
  rw [(mergeContributorIds_fields _ _).2.1, (mergeDateInit_fields _ _).2.1,
    (mergeDateHead_fields _ _).2.1]
  by_cases h : b.report_s3_name.isEmpty
  · rw [if_pos h]
  · rw [if_neg h]

set_option maxHeartbeats 1000000 in
theorem merge2_ri (a b : Report) :
    (merge2 a b).reports_included =
      (if b.report_s3_name.isEmpty then a.reports_included
        else hsInsert a.reports_included b.report_s3_name) := by
  unfold merge2 Report.merge
  dsimp only
  rw [foldl_mtr_g Report.normalizeTech, foldl_mtr]
  dsimp only
  rw [(mergeContributorIds_fields _ _).2.2.1, (mergeDateInit_fields _ _).2.2.1,
    (mergeDateHead_fields _ _).2.2.1]
  by_cases h : b.report_s3_name.isEmpty
  · rw [if_pos h, if_pos h]
  · rw [if_neg h, if_neg h]

set_option maxHeartbeats 1000000 in
theorem merge2_s3 (a b : Report) :
    (merge2 a b).report_s3_name = a.report_s3_name := by
  unfold merge2 Report.merge
  dsimp only
  rw [foldl_mtr_g Report.normalizeTech, foldl_mtr]
  dsimp only
  rw [(mergeContributorIds_fields _ _).2.2.2, (mergeDateInit_fields _ _).2.2.2,
    (mergeDateHead_fields _ _).2.2.2]
  by_cases h : b.report_s3_name.isEmpty
  · rw [if_pos h]
  · rw [if_neg h]

/-! ## Well-formedness preservation through the merge -/

theorem addTech_rowWF (m t : Tech) (hm : TechRowWF m) (ht : TechRowWF t) :
    TechRowWF (Report.addTech m t) := by
  obtain ⟨h1, h2, h3, h4, h5, h6, hk, hr, hp⟩ := hm
  obtain ⟨_, _, _, _, _, _, hk', hr', hp'⟩ := ht
  exact ⟨h1, h2, h3, h4, h5, h6,
    kwcWF_foldl t.keywords m.keywords hk (fun e he => hk'.2 e he),
    kwcWF_foldl t.refs m.refs hr (fun e he => hr'.2 e he),
    kwcWF_foldl t.pkgs m.pkgs hp (fun e he => hp'.2 e he)⟩

theorem reset_rowWF (t : Tech) (hh : t.history = none) (hk : KwcWF t.keywords)
    (hr : KwcWF t.refs) (hp : KwcWF t.pkgs) :
    TechRowWF t.reset_file_and_commit_info :=
  ⟨rfl, rfl, rfl, rfl, rfl, hh, hk, hr, hp⟩

theorem reset_rowWF_of_rowWF (t : Tech) (ht : TechRowWF t) :
    TechRowWF t.reset_file_and_commit_info :=
  reset_rowWF t ht.2.2.2.2.2.1 ht.2.2.2.2.2.2.1 ht.2.2.2.2.2.2.2.1 ht.2.2.2.2.2.2.2.2

theorem reset_normalize_rowWF (t : Tech) (ht : TechRowWF t) :
    TechRowWF (Report.normalizeTech t).reset_file_and_commit_info :=
  reset_rowWF _ ht.2.2.2.2.2.1 ht.2.2.2.2.2.2.1 ht.2.2.2.2.2.2.2.1 ht.2.2.2.2.2.2.2.2

theorem identityEq_of_rowWF (m t : Tech) (hm : TechRowWF m) (ht : TechRowWF t) :
    (Tech.identityEq m t = true ↔ m.language = t.language) := by
  rw [identityEq_iff]
  constructor
  · exact fun h => h.1
  · intro h
    exact ⟨h, hm.1.trans ht.1.symm, hm.2.1.trans ht.2.1.symm⟩

theorem mem_mergeTechInto_language (A : List Tech) (t x : Tech)
    (hx : x ∈ Report.mergeTechInto A t) :
    (∃ y ∈ A, x.language = y.language) ∨ x.language = t.language := by
  induction A with
  | nil =>
    right
    rw [List.mem_singleton.mp hx]
  | cons m rest ih =>
    unfold Report.mergeTechInto at hx
    by_cases h : Tech.identityEq m t = true
    · rw [if_pos h] at hx
      rcases List.mem_cons.mp hx with hx | hx
      · exact Or.inl ⟨m, List.mem_cons_self m rest, by rw [hx]; rfl⟩
      · exact Or.inl ⟨x, List.mem_cons_of_mem m hx, rfl⟩
    · rw [if_neg h] at hx
      rcases List.mem_cons.mp hx with hx | hx
      · exact Or.inl ⟨m, List.mem_cons_self m rest, by rw [hx]⟩
      · rcases ih hx with ⟨y, hy, hxy⟩ | hxy
        · exact Or.inl ⟨y, List.mem_cons_of_mem m hy, hxy⟩
        · exact Or.inr hxy

theorem mergeTechInto_rowsWF (A : List Tech) (t : Tech)
    (hA : ∀ y ∈ A, TechRowWF y) (ht : TechRowWF t) :
    ∀ x ∈ Report.mergeTechInto A t, TechRowWF x := by
  induction A with
  | nil =>
    intro x hx
    rw [List.mem_singleton.mp hx]
    exact ht
  | cons m rest ih =>
    intro x hx
    unfold Report.mergeTechInto at hx
    by_cases h : Tech.identityEq m t = true
    · rw [if_pos h] at hx
      rcases List.mem_cons.mp hx with hx | hx
      · rw [hx]
        exact addTech_rowWF m t (hA m (List.mem_cons_self m rest)) ht
      · exact hA x (List.mem_cons_of_mem m hx)
    · rw [if_neg h] at hx
      rcases List.mem_cons.mp hx with hx | hx
      · rw [hx]
        exact hA m (List.mem_cons_self m rest)
      · exact ih (fun y hy => hA y (List.mem_cons_of_mem m hy)) x hx

theorem mergeTechInto_langNodup (A : List Tech) (t : Tech)
    (hA : ∀ y ∈ A, TechRowWF y) (ht : TechRowWF t)
    (hnd : A.Pairwise (fun a b => a.language ≠ b.language)) :
    (Report.mergeTechInto A t).Pairwise (fun a b => a.language ≠ b.language) := by
  induction A with
  | nil => exact List.pairwise_singleton _ t
  | cons m rest ih =>
    rw [List.pairwise_cons] at hnd
    unfold Report.mergeTechInto
    by_cases h : Tech.identityEq m t = true
    · rw [if_pos h, List.pairwise_cons]
      exact ⟨fun b hb => hnd.1 b hb, hnd.2⟩
    · rw [if_neg h, List.pairwise_cons]
      constructor
      · intro b hb
        rcases mem_mergeTechInto_language rest t b hb with ⟨y, hy, hby⟩ | hby
        · intro heq
          exact hnd.1 y hy (heq.trans hby)
        · intro heq
          apply h
          rw [identityEq_of_rowWF m t (hA m (List.mem_cons_self m rest)) ht]
          exact heq.trans hby
      · exact ih (fun y hy => hA y (List.mem_cons_of_mem m hy)) hnd.2

theorem foldl_merge_techSetWF (g : Tech → Tech) (L : List Tech)
    (hgL : ∀ t ∈ L, TechRowWF (g t)) : ∀ A : List Tech, TechSetWF A →
    TechSetWF (L.foldl (fun acc t => Report.mergeTechInto acc (g t)) A) := by
  induction L with
  | nil =>
    intro A hA
    exact hA
  | cons t rest ih =>
    intro A hA
    rw [List.foldl_cons]
    have hgt := hgL t (List.mem_cons_self t rest)
    refine ih (fun y hy => hgL y (List.mem_cons_of_mem t hy)) _ ⟨?_, ?_⟩
    · exact mergeTechInto_rowsWF A (g t) hA.1 hgt
    · exact mergeTechInto_langNodup A (g t) hA.1 hgt hA.2

theorem merge2_techSetWF (a b : Report) (ha : TechSetWF a.tech)
    (hb : TechSetWF b.tech) : TechSetWF (merge2 a b).tech := by
  rw [merge2_tech]
  have h1 : TechSetWF (b.tech.foldl (fun L t => Report.mergeTechInto L
      (Report.normalizeTech t).reset_file_and_commit_info) []) := by
    refine foldl_merge_techSetWF _ b.tech ?_ [] ⟨(fun y hy => absurd hy (List.not_mem_nil y)), List.Pairwise.nil⟩
    intro t htl
    exact reset_normalize_rowWF t (hb.1 t htl)
  refine foldl_merge_techSetWF _ _ ?_ a.tech ha
  intro t htl
  exact reset_rowWF_of_rowWF t (h1.1 t htl)

/-! ## Reconstruction of a well-formed tech section from its abstraction -/

theorem techSum_eq_zero (f : Tech → Nat) (A : List Tech) (lang : String)
    (h : ∀ b ∈ A, b.language ≠ lang) : techSum f A lang = 0 := by
  induction A with
  | nil => rfl
  | cons m rest ih =>
    rw [techSum_cons, if_neg (h m (List.mem_cons_self m rest)),
      ih (fun b hb => h b (List.mem_cons_of_mem m hb))]

theorem techSum_eq_of_mem (f : Tech → Nat) (A : List Tech)
    (hnd : A.Pairwise (fun a b => a.language ≠ b.language)) (t : Tech)
    (ht : t ∈ A) : techSum f A t.language = f t := by
  induction A with
  | nil => cases ht
  | cons m rest ih =>
    rw [List.pairwise_cons] at hnd
    rw [techSum_cons]
    rcases List.mem_cons.mp ht with ht | ht
    · subst ht
      rw [if_pos rfl, techSum_eq_zero f rest t.language
        (fun b hb => fun hh => hnd.1 b hb hh.symm)]
      omega
    · rw [if_neg (hnd.1 t ht), ih hnd.2 ht]
      omega

theorem setEqv_symm {α : Type} {A B : List α} (h : setEqv A B) : setEqv B A :=
  ⟨h.2, h.1⟩

theorem techCoreEquiv_symm {t u : Tech} (h : techCoreEquiv t u) :
    techCoreEquiv u t := by
  obtain ⟨h1, h2, h3, h4, h5, h6, h7, h8, h9, h10, h11, h12, h13, h14, h15,
    h16, h17, h18, h19⟩ := h
  exact ⟨h1.symm, h2.symm, h3.symm, h4.symm, h5.symm, h6.symm, h7.symm,
    h8.symm, h9.symm, h10.symm, h11.symm, h12.symm, h13.symm, h14.symm,
    h15.symm, setEqv_symm h16, setEqv_symm h17, setEqv_symm h18, h19.symm⟩

theorem techSub_of_abs (A B : List Tech) (hA : TechSetWF A) (hB : TechSetWF B)
    (hl : ∀ lang, hasLang A lang → hasLang B lang)
    (hnum : ∀ f : Tech → Nat,
      (∀ m t, f (Report.addTech m t) = f m + f t) →
      (∀ t, f t.reset_file_and_commit_info = f t) →
      (∀ t, f (Report.normalizeTech t) = f t) →
      ∀ lang, techSum f A lang = techSum f B lang) :
    ∀ t ∈ A, ∃ u ∈ B, techCoreEquiv t u := by
  intro t ht
  rcases hl t.language ⟨t, ht, rfl⟩ with ⟨u, hu, hul⟩
  refine ⟨u, hu, ?_⟩
  have hval : ∀ f : Tech → Nat,
      (∀ m t, f (Report.addTech m t) = f m + f t) →
      (∀ t, f t.reset_file_and_commit_info = f t) →
      (∀ t, f (Report.normalizeTech t) = f t) → f t = f u := by
    intro f p1 p2 p3
    rw [← techSum_eq_of_mem f A hA.2 t ht, hnum f p1 p2 p3, ← hul,
      techSum_eq_of_mem f B hB.2 u hu]
  have hrowt := hA.1 t ht
  have hrowu := hB.1 u hu
  refine ⟨hul.symm, hrowt.1.trans hrowu.1.symm, hrowt.2.1.trans hrowu.2.1.symm,
    hrowt.2.2.1.trans hrowu.2.2.1.symm,
    hrowt.2.2.2.1.trans hrowu.2.2.2.1.symm,
    hrowt.2.2.2.2.1.trans hrowu.2.2.2.2.1.symm,
    hval Tech.files (fun _ _ => rfl) (fun _ => rfl) (fun _ => rfl),
    hval Tech.total_lines (fun _ _ => rfl) (fun _ => rfl) (fun _ => rfl),
    hval Tech.code_lines (fun _ _ => rfl) (fun _ => rfl) (fun _ => rfl),
    hval Tech.line_comments (fun _ _ => rfl) (fun _ => rfl) (fun _ => rfl),
    hval Tech.block_comments (fun _ _ => rfl) (fun _ => rfl) (fun _ => rfl),
    hval Tech.docs_comments (fun _ _ => rfl) (fun _ => rfl) (fun _ => rfl),
    hval Tech.inline_comments (fun _ _ => rfl) (fun _ => rfl) (fun _ => rfl),
    hval Tech.blank_lines (fun _ _ => rfl) (fun _ => rfl) (fun _ => rfl),
    hval Tech.bracket_only_lines (fun _ _ => rfl) (fun _ => rfl) (fun _ => rfl),
    ?_, ?_, ?_,
    hrowt.2.2.2.2.2.1.trans hrowu.2.2.2.2.2.1.symm⟩
  · exact setEqv_of_kwcCnt _ _ hrowt.2.2.2.2.2.2.1 hrowu.2.2.2.2.2.2.1
      (fun key => hval (fun x => kwcCnt x.keywords key)
        (fun m t => kwcCnt_foldl t.keywords m.keywords key)
        (fun _ => rfl) (fun _ => rfl))
  · exact setEqv_of_kwcCnt _ _ hrowt.2.2.2.2.2.2.2.1 hrowu.2.2.2.2.2.2.2.1
      (fun key => hval (fun x => kwcCnt x.refs key)
        (fun m t => kwcCnt_foldl t.refs m.refs key)
        (fun _ => rfl) (fun _ => rfl))
  · exact setEqv_of_kwcCnt _ _ hrowt.2.2.2.2.2.2.2.2 hrowu.2.2.2.2.2.2.2.2
      (fun key => hval (fun x => kwcCnt x.pkgs key)
        (fun m t => kwcCnt_foldl t.pkgs m.pkgs key)
        (fun _ => rfl) (fun _ => rfl))

theorem techSetEquiv_of_abs (A B : List Tech) (hA : TechSetWF A)
    (hB : TechSetWF B) (hl : ∀ lang, hasLang A lang ↔ hasLang B lang)
    (hnum : ∀ f : Tech → Nat,
      (∀ m t, f (Report.addTech m t) = f m + f t) →
      (∀ t, f t.reset_file_and_commit_info = f t) →
      (∀ t, f (Report.normalizeTech t) = f t) →
      ∀ lang, techSum f A lang = techSum f B lang) :
    techSetEquiv A B := by
  constructor
  · exact techSub_of_abs A B hA hB (fun lang => (hl lang).mp) hnum
  · intro u hu
    rcases techSub_of_abs B A hB hA (fun lang => (hl lang).mpr)
      (fun f p1 p2 p3 lang => (hnum f p1 p2 p3 lang).symm) u hu with ⟨t, ht, he⟩
    exact ⟨t, ht, techCoreEquiv_symm he⟩

/-! ## The merge laws (C4) -/

theorem merge2_techSum (f : Tech → Nat)
    (hadd : ∀ m t, f (Report.addTech m t) = f m + f t)
    (hreset : ∀ t, f t.reset_file_and_commit_info = f t)
    (hnorm : ∀ t, f (Report.normalizeTech t) = f t)
    (a b : Report) (lang : String) :
    techSum f (merge2 a b).tech lang =
      techSum f a.tech lang + techSum f b.tech lang := by
  rw [merge2_tech]
  rw [techSum_foldl_merge f hadd (fun t => t.reset_file_and_commit_info)
    hreset (fun t => rfl)]
  rw [techSum_foldl_merge f hadd
    (fun t => (Report.normalizeTech t).reset_file_and_commit_info)
    (fun t => (hreset (Report.normalizeTech t)).trans (hnorm t)) (fun t => rfl)]
  rw [techSum_nil]
  omega

theorem merge2_hasLang (a b : Report) (lang : String) :
    hasLang (merge2 a b).tech lang ↔
      hasLang a.tech lang ∨ hasLang b.tech lang := by
  rw [merge2_tech]
  rw [hasLang_foldl_merge (fun t => t.reset_file_and_commit_info)
    (fun t => rfl)]
  rw [hasLang_foldl_merge
    (fun t => (Report.normalizeTech t).reset_file_and_commit_info)
    (fun t => rfl)]
  have hnil : ¬ hasLang ([] : List Tech) lang := by
    rintro ⟨t, ht, _⟩
    cases ht
  tauto

theorem merge2_techSetEquiv_comm (a b : Report) (ha : Assembled a)
    (hb : Assembled b) : techSetEquiv (merge2 a b).tech (merge2 b a).tech :=
  techSetEquiv_of_abs _ _ (merge2_techSetWF a b ha.1 hb.1)
    (merge2_techSetWF b a hb.1 ha.1)
    (fun lang => by rw [merge2_hasLang, merge2_hasLang]; tauto)
    (fun f p1 p2 p3 lang => by
      rw [merge2_techSum f p1 p2 p3, merge2_techSum f p1 p2 p3]
      omega)

theorem merge2_techSetEquiv_assoc (a b c : Report) (ha : Assembled a)
    (hb : Assembled b) (hc : Assembled c) :
    techSetEquiv (merge2 (merge2 a b) c).tech (merge2 a (merge2 b c)).tech :=
  techSetEquiv_of_abs _ _
    (merge2_techSetWF _ c (merge2_techSetWF a b ha.1 hb.1) hc.1)
    (merge2_techSetWF a _ ha.1 (merge2_techSetWF b c hb.1 hc.1))
    (fun lang => by
      rw [merge2_hasLang, merge2_hasLang, merge2_hasLang, merge2_hasLang]
      tauto)
    (fun f p1 p2 p3 lang => by
      rw [merge2_techSum f p1 p2 p3, merge2_techSum f p1 p2 p3,
        merge2_techSum f p1 p2 p3, merge2_techSum f p1 p2 p3]
      omega)

theorem merge2_uft_wf (a b : Report) (ha : KwcWF a.unknown_file_types)
    (hb : KwcWF b.unknown_file_types) : KwcWF (merge2 a b).unknown_file_types := by
  rw [merge2_uft]
  exact kwcWF_foldl b.unknown_file_types a.unknown_file_types ha
    (fun e he => hb.2 e he)

theorem merge2_uft_cnt (a b : Report) (key : String) :
    kwcCnt (merge2 a b).unknown_file_types key =
      kwcCnt a.unknown_file_types key + kwcCnt b.unknown_file_types key := by
  rw [merge2_uft, kwcCnt_foldl]

theorem setEqv_refl {α : Type} (A : List α) : setEqv A A :=
  ⟨fun x hx => hx, fun x hx => hx⟩

theorem merge2_ri_comm (a b : Report) (ha : Assembled a) (hb : Assembled b) :
    setEqv (merge2 a b).reports_included (merge2 b a).reports_included := by
  rw [merge2_ri, merge2_ri, ha.2.2, hb.2.2]
  by_cases hae : a.report_s3_name = ""
  · by_cases hbe : b.report_s3_name = ""
    · rw [if_pos (String.isEmpty_iff _ |>.mpr hbe),
        if_pos (String.isEmpty_iff _ |>.mpr hae), if_pos hae, if_pos hbe]
      exact setEqv_refl []
    · rw [if_neg (fun hh => hbe ((String.isEmpty_iff _).mp hh)),
        if_pos (String.isEmpty_iff _ |>.mpr hae), if_pos hae, if_neg hbe]
      show setEqv (hsInsert [] b.report_s3_name) [b.report_s3_name]
      unfold hsInsert
      rw [if_neg (List.not_mem_nil b.report_s3_name)]
      exact setEqv_refl _
  · by_cases hbe : b.report_s3_name = ""
    · rw [if_pos (String.isEmpty_iff _ |>.mpr hbe),
        if_neg (fun hh => hae ((String.isEmpty_iff _).mp hh)), if_pos hbe,
        if_neg hae]
      show setEqv [a.report_s3_name] (hsInsert [] a.report_s3_name)
      unfold hsInsert
      rw [if_neg (List.not_mem_nil a.report_s3_name)]
      exact setEqv_refl _
    · rw [if_neg (fun hh => hbe ((String.isEmpty_iff _).mp hh)),
        if_neg (fun hh => hae ((String.isEmpty_iff _).mp hh)), if_neg hae,
        if_neg hbe]
      unfold hsInsert
      by_cases heq : a.report_s3_name = b.report_s3_name
      · rw [if_pos (by rw [List.mem_singleton]; exact heq.symm),
          if_pos (by rw [List.mem_singleton]; exact heq)]
        constructor
        · intro x hx
          rw [List.mem_singleton] at hx
          rw [List.mem_singleton, hx]
          exact heq
        · intro x hx
          rw [List.mem_singleton] at hx
          rw [List.mem_singleton, hx]
          exact heq.symm
      · rw [if_neg (by rw [List.mem_singleton]; exact fun hh => heq hh.symm),
          if_neg (by rw [List.mem_singleton]; exact heq)]
        constructor <;> intro x hx <;>
          simp only [List.mem_cons, List.mem_singleton] at hx ⊢ <;> tauto

/-- C4 amended: with `x` the master accumulator, `Report::merge(Some(x), y)` is
commutative and associative on assembled reports under structural equality on
`unknown_file_types` and on `tech` restricted to every field except the
derived summaries `refs_kw`/`pkgs_kw` and `muncher_hash` (which the merge
recomputes for the non-master side only and keeps from whichever side was the
master); `reports_included` is commutative, but it is not associative because
`merge` adds only the other report's own S3 name, dropping names the other
report had itself accumulated. -/
theorem c4_merge_commutative_associative_amended (a b c : Report)
    (ha : Assembled a) (hb : Assembled b) (hc : Assembled c) :
    techSetEquiv (merge2 a b).tech (merge2 b a).tech ∧
    setEqv (merge2 a b).unknown_file_types (merge2 b a).unknown_file_types ∧
    setEqv (merge2 a b).reports_included (merge2 b a).reports_included ∧
    techSetEquiv (merge2 (merge2 a b) c).tech (merge2 a (merge2 b c)).tech ∧
    setEqv (merge2 (merge2 a b) c).unknown_file_types
      (merge2 a (merge2 b c)).unknown_file_types := by
  refine ⟨merge2_techSetEquiv_comm a b ha hb, ?_, merge2_ri_comm a b ha hb,
    merge2_techSetEquiv_assoc a b c ha hb hc, ?_⟩
  · refine setEqv_of_kwcCnt _ _ (merge2_uft_wf a b ha.2.1 hb.2.1)
      (merge2_uft_wf b a hb.2.1 ha.2.1) ?_
    intro key
    rw [merge2_uft_cnt, merge2_uft_cnt]
    omega
  · refine setEqv_of_kwcCnt _ _
      (merge2_uft_wf _ c (merge2_uft_wf a b ha.2.1 hb.2.1) hc.2.1)
      (merge2_uft_wf a _ ha.2.1 (merge2_uft_wf b c hb.2.1 hc.2.1)) ?_
    intro key
    rw [merge2_uft_cnt, merge2_uft_cnt, merge2_uft_cnt, merge2_uft_cnt]
    omega

/-- C4 counterexample: on the assembled reports `c4a`, `c4b`, `c4c`,
commutativity fails under structural equality on `tech` (the master side's
rows keep `refs_kw = None` while the other side's rows get it recomputed), and
associativity fails on `reports_included` (the S3 name of `c4c` is dropped on
the right because `merge` never unions nested `reports_included`). -/
theorem c4_counterexample_merge_laws :
    ¬ setEqv (merge2 c4a c4b).tech (merge2 c4b c4a).tech ∧
    ¬ setEqv (merge2 (merge2 c4a c4b) c4c).reports_included
        (merge2 c4a (merge2 c4b c4c)).reports_included := by
  constructor
  · decide
  · decide

/-- Witness for the amended C4 on the three concrete assembled reports. -/
theorem c4_merge_commutative_associative_amended_witness :
    (Assembled c4a ∧ Assembled c4b ∧ Assembled c4c) ∧
    (techSetEquiv (merge2 c4a c4b).tech (merge2 c4b c4a).tech ∧
    setEqv (merge2 c4a c4b).unknown_file_types
      (merge2 c4b c4a).unknown_file_types ∧
    setEqv (merge2 c4a c4b).reports_included
      (merge2 c4b c4a).reports_included ∧
    techSetEquiv (merge2 (merge2 c4a c4b) c4c).tech
      (merge2 c4a (merge2 c4b c4c)).tech ∧
    setEqv (merge2 (merge2 c4a c4b) c4c).unknown_file_types
      (merge2 c4a (merge2 c4b c4c)).unknown_file_types) :=
  ⟨⟨by decide, by decide, by decide⟩,
    c4_merge_commutative_associative_amended c4a c4b c4c
      (by decide) (by decide) (by decide)⟩

/-! ## C7 — newline splitting in the decode stage -/

theorem splitInclusiveNl_nlfree (l : List Char) (hne : l ≠ []) (h : '\n' ∉ l) :
    splitInclusiveNl l = [l] := by
  induction l with
  | nil => cases hne rfl
  | cons c cs ih =>
    have hc : c ≠ '\n' := fun e => h (e ▸ List.mem_cons_self c cs)
    unfold splitInclusiveNl
    rw [if_neg hc]
    cases cs with
    | nil => simp [splitInclusiveNl]
    | cons d ds =>
      rw [ih (by simp) (fun hm => h (List.mem_cons_of_mem c hm))]

theorem splitInclusiveNl_append (p rest : List Char) (h : '\n' ∉ p) :
    splitInclusiveNl (p ++ '\n' :: rest) = (p ++ ['\n']) :: splitInclusiveNl rest := by
  induction p with
  | nil => simp [splitInclusiveNl]
  | cons c cs ih =>
    have hc : c ≠ '\n' := fun e => h (e ▸ List.mem_cons_self c cs)
    rw [List.cons_append]
    conv_lhs => rw [splitInclusiveNl]
    rw [if_neg hc, ih (fun hm => h (List.mem_cons_of_mem c hm))]
    simp

theorem stripNlCrRev_of_head_ne (l : List Char) (h : l.head? ≠ some '\n') :
    stripNlCrRev l = l := by
  cases l with
  | nil => rfl
  | cons a as =>
    have ha : a ≠ '\n' := fun e => h (by rw [e]; rfl)
    cases as with
    | nil => simp [stripNlCrRev, ha]
    | cons b bs => simp [stripNlCrRev, ha]

theorem linesMap_nlfree (l : List Char) (h : '\n' ∉ l) : linesMap l = l := by
  unfold linesMap
  rw [stripNlCrRev_of_head_ne, List.reverse_reverse]
  intro heq
  exact h (List.mem_reverse.mp (List.mem_of_mem_head? (Option.mem_def.mpr heq)))

theorem linesMap_append_nl (p : List Char) (hr : p.getLast? ≠ some '\r') :
    linesMap (p ++ ['\n']) = p := by
  cases hrev : p.reverse with
  | nil =>
    have hp : p = [] := by
      rw [← List.reverse_reverse p, hrev]
      rfl
    subst hp
    rfl
  | cons a as =>
    have ha : a ≠ '\r' := by
      intro e
      apply hr
      rw [← List.head?_reverse, hrev, e]
      rfl
    have hp : p = (a :: as).reverse := by rw [← hrev, List.reverse_reverse]
    subst hp
    unfold linesMap
    rw [List.reverse_append, List.reverse_reverse]
    show (stripNlCrRev ('\n' :: a :: as)).reverse = (a :: as).reverse
    rw [show stripNlCrRev ('\n' :: a :: as) = a :: as by simp [stripNlCrRev, ha]]

theorem linesMap_append_crnl (p : List Char) :
    linesMap (p ++ ['\r', '\n']) = p := by
  unfold linesMap
  rw [List.reverse_append]
  show (stripNlCrRev ('\n' :: '\r' :: p.reverse)).reverse = p
  rw [show stripNlCrRev ('\n' :: '\r' :: p.reverse) = p.reverse from rfl,
    List.reverse_reverse]

theorem specSplitGo_false_nil (acc : List Char) (hn : '\n' ∉ acc) :
    specSplitGo false [] acc = rustLines acc.reverse := by
  by_cases ha : acc = []
  · subst ha; rfl
  · have hne : acc.reverse ≠ [] := by simpa using ha
    have hn' : '\n' ∉ acc.reverse := by simpa using hn
    rw [rustLines, splitInclusiveNl_nlfree _ hne hn', List.map_cons, List.map_nil,
      linesMap_nlfree _ hn']
    simp [specSplitGo, ha]

/-- The pending-line invariant of the scanner versus Rust's
`split_inclusive`-based `lines()`: with no `'\n'` pending and no pending
trailing `'\r'` immediately before an incoming `'\n'`, the scanner with lone
`'\r'` disabled computes exactly `rustLines` of pending-plus-remaining. -/
theorem specSplitGo_false_bridge (n : Nat) (cs acc : List Char)
    (hlen : cs.length ≤ n) (hn : '\n' ∉ acc)
    (hcr : acc.head? = some '\r' → cs.head? ≠ some '\n') :
    specSplitGo false cs acc = rustLines (acc.reverse ++ cs) := by
  induction n generalizing cs acc with
  | zero =>
    have : cs = [] := List.length_eq_zero.mp (Nat.le_zero.mp hlen)
    subst this
    rw [specSplitGo_false_nil acc hn, List.append_nil]
  | succ n ih =>
    cases cs with
    | nil => rw [specSplitGo_false_nil acc hn, List.append_nil]
    | cons c cs' =>
      by_cases hc : c = '\n'
      · subst hc
        have hr : acc.reverse.getLast? ≠ some '\r' := by
          rw [List.getLast?_reverse]
          intro hh
          exact hcr hh rfl
        have hn' : '\n' ∉ acc.reverse := by simpa using hn
        rw [show specSplitGo false ('\n' :: cs') acc =
            String.mk acc.reverse :: specSplitGo false cs' [] by simp [specSplitGo]]
        rw [ih cs' [] (by simp at hlen; omega) (by simp) (by simp)]
        simp only [List.reverse_nil, List.nil_append]
        conv_rhs => rw [rustLines]
        rw [splitInclusiveNl_append _ _ hn', List.map_cons, linesMap_append_nl _ hr]
        rfl
      · by_cases hcr2 : c = '\r'
        · subst hcr2
          cases cs' with
          | nil =>
            rw [show specSplitGo false ['\r'] acc =
                specSplitGo false [] ('\r' :: acc) by simp [specSplitGo]]
            rw [specSplitGo_false_nil ('\r' :: acc) (by simp [hn]), List.reverse_cons]
          | cons d ds =>
            by_cases hd : d = '\n'
            · subst hd
              have hn' : '\n' ∉ acc.reverse ++ ['\r'] := by
                intro hm
                rcases List.mem_append.mp hm with hm | hm
                · exact hn (List.mem_reverse.mp hm)
                · simp at hm
              rw [show specSplitGo false ('\r' :: '\n' :: ds) acc =
                  String.mk acc.reverse :: specSplitGo false ds [] by simp [specSplitGo]]
              rw [ih ds [] (by simp at hlen; omega) (by simp) (by simp)]
              simp only [List.reverse_nil, List.nil_append]
              conv_rhs => rw [show acc.reverse ++ '\r' :: '\n' :: ds =
                  (acc.reverse ++ ['\r']) ++ '\n' :: ds by simp]
              conv_rhs => rw [rustLines]
              rw [splitInclusiveNl_append _ _ hn', List.map_cons]
              rw [show (acc.reverse ++ ['\r']) ++ ['\n'] =
                  acc.reverse ++ ['\r', '\n'] by simp]
              rw [linesMap_append_crnl]
              rfl
            · rw [show specSplitGo false ('\r' :: d :: ds) acc =
                  specSplitGo false (d :: ds) ('\r' :: acc) by simp [specSplitGo, hd]]
              rw [ih (d :: ds) ('\r' :: acc)
                (by simp at hlen ⊢; omega) (by simp [hn])
                (by intro _ hh; simp at hh; exact hd hh)]
              rw [List.reverse_cons, List.append_assoc]
              rfl
        · rw [show specSplitGo false (c :: cs') acc =
              specSplitGo false cs' (c :: acc) by simp [specSplitGo, hc, hcr2]]
          rw [ih cs' (c :: acc) (by simp at hlen; omega)
            (by simp [hn]; exact fun e => hc e.symm)
            (by intro hh; simp at hh; exact absurd hh hcr2)]
          rw [List.reverse_cons, List.append_assoc]
          rfl

/-- C7 counterexample: the decode stage does **not** treat a lone `'\r'` as a
line separator.  On the decoded text `"a\rb"` the claimed splitting yields
`["a", "b"]`, but `get_file_lines` (Rust's `str::lines()`) yields the single
line `"a\rb"`. -/
theorem c7_counterexample_lone_cr :
    specLines "a\rb" = ["a", "b"] ∧
    get_file_lines (fun _ => some "a\rb") false = some ["a\rb"] ∧
    rustLines "a\rb".data ≠ specLines "a\rb" := by
  refine ⟨by decide, by decide, by decide⟩

/-- C7 amended: the line sequence handed to the classifier by `get_file_lines`
is the decoded text split on `\n` and `\r\n` only — a lone `\r` is not a
separator and stays inside its line — and the trailing empty line is dropped
iff the text ends with such a newline (the scanner `specSplitGo false` states
exactly that reading). -/
theorem c7_newline_splitting_amended (decode : Bool → Option String)
    (try_ansi : Bool) (s : String) (h : decode try_ansi = some s) :
    get_file_lines decode try_ansi = some (specSplitGo false s.data []) := by
  unfold get_file_lines
  rw [h]
  rw [specSplitGo_false_bridge s.data.length s.data [] (Nat.le_refl _)
    (by simp) (by simp)]
  rfl

/-- Witness for the amended C7 on the text `"x\r\ny\nz"`. -/
theorem c7_newline_splitting_amended_witness :
    c7wDecode false = some "x\r\ny\nz" ∧
    get_file_lines c7wDecode false =
      some (specSplitGo false "x\r\ny\nz".data []) ∧
    specSplitGo false "x\r\ny\nz".data [] = ["x", "y", "z"] :=
  ⟨rfl, c7_newline_splitting_amended c7wDecode false "x\r\ny\nz" rfl, by decide⟩

/-! ## C8 — unknown-extension counting -/

theorem lastDotSuffix_eq_none (cs : List Char) (h : '.' ∉ cs) :
    Report.lastDotSuffix cs = none := by
  induction cs with
  | nil => rfl
  | cons c cs' ih =>
    have hc : c ≠ '.' := fun e => h (e ▸ List.mem_cons_self c cs')
    unfold Report.lastDotSuffix
    rw [ih (fun hm => h (List.mem_cons_of_mem c hm))]
    simp [hc]

theorem lastDotSuffix_append (pre post : List Char) (h : '.' ∉ post) :
    Report.lastDotSuffix (pre ++ '.' :: post) = some ('.' :: post) := by
  induction pre with
  | nil =>
    show Report.lastDotSuffix ('.' :: post) = _
    unfold Report.lastDotSuffix
    rw [lastDotSuffix_eq_none post h]
    simp
  | cons c pre' ih =>
    rw [List.cons_append]
    unfold Report.lastDotSuffix
    rw [ih]

theorem mem_hsInsert {α : Type} [DecidableEq α] (l : List α) (a : α) :
    a ∈ hsInsert l a := by
  unfold hsInsert
  split
  · assumption
  · exact List.mem_cons_self a l

/-- C8 amended: `add_unprocessed_file` always records the path in
`unprocessed_file_names`; `unknown_file_types` is incremented for the suffix
starting at the final `'.'` with its leading dots stripped, whenever the path
contains a `'.'` and that suffix holds no path separator; a path with no `'.'`
does not increment; in particular dotfile basenames do increment (by their name
without the leading dot). -/
theorem c8_unknown_extension_amended (r : Report) (file_name : String) :
    file_name ∈ (r.add_unprocessed_file file_name).unprocessed_file_names ∧
    ('.' ∉ file_name.data →
      (r.add_unprocessed_file file_name).unknown_file_types =
        r.unknown_file_types) ∧
    (∀ pre post, file_name.data = pre ++ '.' :: post → '.' ∉ post →
      (('/' ∈ post ∨ '\\' ∈ post) →
        (r.add_unprocessed_file file_name).unknown_file_types =
          r.unknown_file_types) ∧
      (¬ ('/' ∈ post ∨ '\\' ∈ post) →
        (r.add_unprocessed_file file_name).unknown_file_types =
          increment_counters r.unknown_file_types
            ⟨String.mk (('.' :: post).dropWhile (fun c => c = '.')), none, 1⟩)) := by
  refine ⟨?_, ?_, ?_⟩
  · unfold Report.add_unprocessed_file
    split
    · exact mem_hsInsert _ _
    · split
      · exact mem_hsInsert _ _
      · exact mem_hsInsert _ _
  · intro h
    unfold Report.add_unprocessed_file
    rw [lastDotSuffix_eq_none file_name.data h]
  · intro pre post hdec hpost
    unfold Report.add_unprocessed_file
    rw [hdec, lastDotSuffix_append pre post hpost]
    dsimp only
    constructor
    · intro hsep
      have hcond : ¬ (¬ ('.' :: post).isEmpty = true ∧
          ¬ ('.' :: post).contains '/' = true ∧
          ¬ ('.' :: post).contains '\\' = true) := by
        rcases hsep with hsep | hsep
        · intro hh
          exact hh.2.1 (by simp [List.elem_iff, hsep])
        · intro hh
          exact hh.2.2 (by simp [List.elem_iff, hsep])
      rw [if_neg hcond]
    · intro hsep
      push_neg at hsep
      have hcond : ¬ ('.' :: post).isEmpty = true ∧
          ¬ ('.' :: post).contains '/' = true ∧
          ¬ ('.' :: post).contains '\\' = true := by
        refine ⟨by simp, ?_, ?_⟩
        · simp [List.elem_iff]
          exact fun e => absurd e hsep.1
        · simp [List.elem_iff]
          exact fun e => absurd e hsep.2
      rw [if_pos hcond]

/-- C8 counterexample: the claim says dotfile paths do not increment
`unknown_file_types`, but the code counts `".gitignore"` under the extension
`"gitignore"`. -/
theorem c8_counterexample_dotfile :
    Report.blank.unknown_file_types = [] ∧
    (Report.blank.add_unprocessed_file ".gitignore").unknown_file_types =
      [⟨"gitignore", none, 1⟩] := by
  refine ⟨rfl, by decide⟩

/-- Witness for the amended C8 on the dotfile `".gitignore"`. -/
theorem c8_unknown_extension_amended_witness :
    ".gitignore" ∈
      (Report.blank.add_unprocessed_file ".gitignore").unprocessed_file_names ∧
    (Report.blank.add_unprocessed_file ".gitignore").unknown_file_types =
      increment_counters Report.blank.unknown_file_types
        ⟨String.mk (('.' :: "gitignore".data).dropWhile (fun c => c = '.')),
          none, 1⟩ := by
  have h := c8_unknown_extension_amended Report.blank ".gitignore"
  refine ⟨h.1, ?_⟩
  exact (h.2.2 [] "gitignore".data (by decide) (by decide)).2 (by decide)

/-! ## C3 — contributor-merge recency -/

theorem pftNodup_eq_of_identityEq {l : List Tech} (h : PftNodup l) {a b : Tech}
    (ha : a ∈ l) (hb : b ∈ l) (heq : Tech.identityEq a b = true) : a = b := by
  induction l with
  | nil => cases ha
  | cons x xs ih =>
    have h' := List.pairwise_cons.mp h
    rcases List.mem_cons.mp ha with ha1 | ha1
    · rcases List.mem_cons.mp hb with hb1 | hb1
      · rw [ha1, hb1]
      · subst ha1
        have hfx := h'.1 b hb1
        rw [heq] at hfx
        cases hfx
    · rcases List.mem_cons.mp hb with hb1 | hb1
      · subst hb1
        have hfx := h'.1 a ha1
        rw [identityEq_symm heq] at hfx
        cases hfx
      · exact ih h'.2 ha1 hb1

theorem hsInsertTech_of_not_mem (l : List Tech) (t : Tech)
    (h : ∀ e ∈ l, Tech.identityEq e t = false) :
    Report.hsInsertTech l t = t :: l := by
  unfold Report.hsInsertTech
  rw [if_neg]
  intro hany
  rcases List.any_eq_true.mp hany with ⟨e, he, hp⟩
  rw [h e he] at hp
  cases hp

theorem mergeContributorStep_inv (self0 S P : List Tech) (t : Tech)
    (inv : MergeInv self0 S P) :
    MergeInv self0 (Report.mergeContributorStep S t) (P ++ [t]) := by
  obtain ⟨hnd, hprov, hmax, hcov⟩ := inv
  unfold Report.mergeContributorStep
  split
  · rename_i hany
    rcases List.any_eq_true.mp hany with ⟨e, he, hp⟩
    rw [Bool.and_eq_true] at hp
    obtain ⟨hpe, hpg⟩ := hp
    refine ⟨hnd, ?_, ?_, ?_⟩
    · intro x hx
      rcases hprov x hx with h | h
      · exact Or.inl h
      · exact Or.inr (List.mem_append_left _ h)
    · intro x hx c hc hceq
      rcases hc with hc | hc
      · exact hmax x hx c (Or.inl hc) hceq
      · rcases List.mem_append.mp hc with hc | hc
        · exact hmax x hx c (Or.inr hc) hceq
        · have hct : c = t := List.mem_singleton.mp hc
          subst hct
          have hex : e = x :=
            pftNodup_eq_of_identityEq hnd he hx (identityEq_trans hpe hceq)
          subst hex
          exact epochGt_asymm hpg
    · intro c hc
      rcases hc with hc | hc
      · exact hcov c (Or.inl hc)
      · rcases List.mem_append.mp hc with hc | hc
        · exact hcov c (Or.inr hc)
        · have hct : c = t := List.mem_singleton.mp hc
          subst hct
          exact ⟨e, he, hpe⟩
  · rename_i hany
    have hnone : ∀ e ∈ S, ¬ (Tech.identityEq e t = true ∧
        Report.epochGt e.commit_date_epoch t.commit_date_epoch = true) := by
      intro e he hcontra
      apply hany
      refine List.any_eq_true.mpr ⟨e, he, ?_⟩
      rw [Bool.and_eq_true]
      exact ⟨hcontra.1, hcontra.2⟩
    have hfilter : ∀ x ∈ S.filter (fun u =>
        !(Tech.identityEq u t) ||
          Report.epochGt u.commit_date_epoch t.commit_date_epoch),
        x ∈ S ∧ Tech.identityEq x t = false := by
      intro x hx
      have hx' := List.mem_filter.mp hx
      refine ⟨hx'.1, ?_⟩
      by_contra hne
      have hxeq : Tech.identityEq x t = true := by
        cases hxy : Tech.identityEq x t with
        | false => exact absurd hxy hne
        | true => rfl
      have := hx'.2
      rw [hxeq] at this
      simp only [Bool.not_true, Bool.false_or] at this
      exact hnone x hx'.1 ⟨hxeq, this⟩
    rw [hsInsertTech_of_not_mem _ _ (fun e he => (hfilter e he).2)]
    refine ⟨?_, ?_, ?_, ?_⟩
    · unfold PftNodup
      rw [List.pairwise_cons]
      constructor
      · intro x hx
        cases hxy : Tech.identityEq t x with
        | false => rfl
        | true => exact absurd (identityEq_symm hxy) (by
            rw [(hfilter x hx).2]
            simp)
      · exact List.Pairwise.sublist (List.filter_sublist S) hnd
    · intro x hx
      rcases List.mem_cons.mp hx with hx | hx
      · exact Or.inr (List.mem_append_right _ (hx ▸ List.mem_singleton_self t))
      · rcases hprov x (hfilter x hx).1 with h | h
        · exact Or.inl h
        · exact Or.inr (List.mem_append_left _ h)
    · intro x hx c hc hceq
      have hc' : (c ∈ self0 ∨ c ∈ P) ∨ c = t := by
        rcases hc with hc | hc
        · exact Or.inl (Or.inl hc)
        · rcases List.mem_append.mp hc with hc | hc
          · exact Or.inl (Or.inr hc)
          · exact Or.inr (List.mem_singleton.mp hc)
      rcases List.mem_cons.mp hx with hx | hx
      · subst hx
        rcases hc' with hc' | hc'
        · rcases hcov c hc' with ⟨s, hs, hseq⟩
          have hst : Tech.identityEq s x = true :=
            identityEq_trans hseq hceq
          have h1 : Report.epochGt c.commit_date_epoch s.commit_date_epoch = false :=
            hmax s hs c hc' (identityEq_symm hseq)
          have h2 : Report.epochGt s.commit_date_epoch x.commit_date_epoch = false := by
            cases hsg : Report.epochGt s.commit_date_epoch x.commit_date_epoch with
            | false => rfl
            | true => exact absurd ⟨hst, hsg⟩ (hnone s hs)
          exact epochGt_le_trans h1 h2
        · subst hc'
          exact epochGt_irrefl _
      · rcases hc' with hc' | hc'
        · exact hmax x (hfilter x hx).1 c hc' hceq
        · subst hc'
          exact absurd (identityEq_symm hceq) (by
            rw [(hfilter x hx).2]
            simp)
    · intro c hc
      have hc' : (c ∈ self0 ∨ c ∈ P) ∨ c = t := by
        rcases hc with hc | hc
        · exact Or.inl (Or.inl hc)
        · rcases List.mem_append.mp hc with hc | hc
          · exact Or.inl (Or.inr hc)
          · exact Or.inr (List.mem_singleton.mp hc)
      rcases hc' with hc' | hc'
      · rcases hcov c hc' with ⟨s, hs, hseq⟩
        cases hst : Tech.identityEq s t with
        | true =>
          exact ⟨t, List.mem_cons_self _ _,
            identityEq_trans (identityEq_symm hst) hseq⟩
        | false =>
          refine ⟨s, List.mem_cons_of_mem _ (List.mem_filter.mpr ⟨hs, ?_⟩), hseq⟩
          rw [hst]
          simp
      · subst hc'
        exact ⟨c, List.mem_cons_self _ _, identityEq_refl c⟩

theorem mergeContributor_foldl_inv (self0 : List Tech) (L : List Tech)
    (S P : List Tech) (inv : MergeInv self0 S P) :
    MergeInv self0 (L.foldl Report.mergeContributorStep S) (P ++ L) := by
  induction L generalizing S P with
  | nil => simpa using inv
  | cons t rest ih =>
    have h1 := mergeContributorStep_inv self0 S P t inv
    have h2 := ih (Report.mergeContributorStep S t) (P ++ [t]) h1
    simpa using h2

theorem mergeInv_init (self0 : List Tech) (hnd : PftNodup self0) :
    MergeInv self0 self0 [] := by
  refine ⟨hnd, fun t ht => Or.inl ht, ?_, ?_⟩
  · intro t ht c hc hceq
    rcases hc with hc | hc
    · have : c = t := pftNodup_eq_of_identityEq hnd hc ht hceq
      subst this
      exact epochGt_irrefl _
    · cases hc
  · intro c hc
    rcases hc with hc | hc
    · exact ⟨c, hc, identityEq_refl c⟩
    · cases hc

/-- C3: after `merge_contributor_reports`, every surviving per-file record
comes from one of the two reports, has the maximum `commit_date_epoch` among
the records with its identity on either side, every identity present on either
side survives, and identities stay pairwise distinct (the older equal-identity
entries are dropped). -/
theorem c3_contributor_merge_recency (self other : Report) (git_id : String)
    (hself : PftNodup self.per_file_tech) :
    (∀ t ∈ (self.merge_contributor_reports other git_id).per_file_tech,
      t ∈ self.per_file_tech ∨ t ∈ other.per_file_tech) ∧
    (∀ t ∈ (self.merge_contributor_reports other git_id).per_file_tech,
      ∀ c, (c ∈ self.per_file_tech ∨ c ∈ other.per_file_tech) →
        Tech.identityEq c t = true →
        Report.epochGt c.commit_date_epoch t.commit_date_epoch = false) ∧
    (∀ c, (c ∈ self.per_file_tech ∨ c ∈ other.per_file_tech) →
      ∃ t ∈ (self.merge_contributor_reports other git_id).per_file_tech,
        Tech.identityEq t c = true) ∧
    PftNodup (self.merge_contributor_reports other git_id).per_file_tech := by
  have hres : (self.merge_contributor_reports other git_id).per_file_tech =
      other.per_file_tech.foldl Report.mergeContributorStep self.per_file_tech := rfl
  have hinv := mergeContributor_foldl_inv self.per_file_tech other.per_file_tech
    self.per_file_tech [] (mergeInv_init self.per_file_tech hself)
  rw [List.nil_append] at hinv
  obtain ⟨hnd, hprov, hmax, hcov⟩ := hinv
  rw [hres]
  exact ⟨hprov, hmax, hcov, hnd⟩

/-- Witness for C3: scenario 5 of the spec — epochs 100 and 200 on the same
`a.go` identity merge to the epoch-200 entry alone. -/
theorem c3_contributor_merge_recency_witness :
    ((∀ t ∈ (c3wSelf.merge_contributor_reports c3wOther "u").per_file_tech,
      t ∈ c3wSelf.per_file_tech ∨ t ∈ c3wOther.per_file_tech) ∧
    (∀ t ∈ (c3wSelf.merge_contributor_reports c3wOther "u").per_file_tech,
      ∀ c, (c ∈ c3wSelf.per_file_tech ∨ c ∈ c3wOther.per_file_tech) →
        Tech.identityEq c t = true →
        Report.epochGt c.commit_date_epoch t.commit_date_epoch = false) ∧
    (∀ c, (c ∈ c3wSelf.per_file_tech ∨ c ∈ c3wOther.per_file_tech) →
      ∃ t ∈ (c3wSelf.merge_contributor_reports c3wOther "u").per_file_tech,
        Tech.identityEq t c = true) ∧
    PftNodup (c3wSelf.merge_contributor_reports c3wOther "u").per_file_tech) ∧
    (c3wSelf.merge_contributor_reports c3wOther "u").per_file_tech =
      [mkFileTech "Go" "go" "a.go" 200] ∧
    "u" ∈ (c3wSelf.merge_contributor_reports c3wOther "u").git_ids_included :=
  ⟨c3_contributor_merge_recency c3wSelf c3wOther "u" (by decide),
    by decide, by decide⟩

/-! ## C1 — muncher load atomicity -/

/-- C1 (code bug): a failing `keywords` pattern does **not** make
`Muncher::new` return `None` — the `keywords` loop of `compile_all_regex`
discards the success flag of `add_regex_to_list`, so the muncher is accepted
with the bad pattern silently dropped (a partially compiled muncher), while the
same failing pattern in `bracket_only` is fatal as the claim describes. -/
theorem c1_keyword_regex_failure_not_fatal :
    c1Compile "(" = none ∧
    (Muncher.new c1Compile c1Hash c1SrcKeywords "rust").isSome = true ∧
    (Muncher.new c1Compile c1Hash c1SrcBracket "rust").isSome = false := by
  refine ⟨rfl, rfl, rfl⟩

/-! ## C10 — `process_file` is total over its error monad -/

/-- C10: for every muncher, file coordinates, blob-read/decode outcome (the
`decode` oracle covers an unreadable blob as well as undecodable bytes) and
tree-files hint, `process_file` returns `Ok`; its `Err` branch is
unreachable. -/
theorem c10_process_file_never_errors (rules : Muncher Rx)
    (file_name blob_sha1 commit_sha1 : String) (commit_date_epoch : Int)
    (commit_date_iso : String) (decode : Bool → Option String)
    (all_tree_files : Option (List String)) :
    ∃ t, process_file rules file_name blob_sha1 commit_sha1 commit_date_epoch
      commit_date_iso decode all_tree_files = Except.ok t := by
  unfold process_file
  cases h : (match get_file_lines decode false with
    | some v => some v
    | none => get_file_lines decode true) with
  | none => exact ⟨_, rfl⟩
  | some lines =>
    by_cases hl : lines.length = 0 <;> simp [hl]

/-! ## C9 — recompute idempotence -/

/-- Folding records through `merge_tech_record` only rewrites the `tech`
field. -/
theorem foldl_merge_tech_record_tech (l : List Tech) (s : Report) :
    (l.foldl Report.merge_tech_record s).tech =
      l.foldl (fun acc t => Report.mergeTechInto acc t.reset_file_and_commit_info) s.tech ∧
    (l.foldl Report.merge_tech_record s).per_file_tech = s.per_file_tech := by
  induction l generalizing s with
  | nil => exact ⟨rfl, rfl⟩
  | cons t rest ih => exact (ih (s.merge_tech_record t))

/-- One application of `recompute_tech_section` leaves `tech` equal to the
fold of the per-file records. -/
theorem recompute_tech_section_tech (r : Report) :
    r.recompute_tech_section.tech =
      r.per_file_tech.foldl
        (fun acc t => Report.mergeTechInto acc t.reset_file_and_commit_info) [] :=
  (foldl_merge_tech_record_tech r.per_file_tech { r with tech := [] }).1

/-- `recompute_tech_section` does not touch `per_file_tech`. -/
theorem recompute_tech_section_pft (r : Report) :
    r.recompute_tech_section.per_file_tech = r.per_file_tech :=
  (foldl_merge_tech_record_tech r.per_file_tech { r with tech := [] }).2

/-- C9: `recompute_tech_section` is idempotent, and one application leaves in
`tech` exactly the fold of `merge_tech_record` over `per_file_tech` started
from the empty tech set. -/
theorem c9_recompute_tech_section_idempotent (r : Report) :
    (r.recompute_tech_section.recompute_tech_section).tech =
      r.recompute_tech_section.tech ∧
    r.recompute_tech_section.tech =
      r.per_file_tech.foldl
        (fun acc t => Report.mergeTechInto acc t.reset_file_and_commit_info) [] := by
  refine ⟨?_, recompute_tech_section_tech r⟩
  rw [recompute_tech_section_tech r.recompute_tech_section,
    recompute_tech_section_pft r, recompute_tech_section_tech r]

/-! ## C2 — total-lines conservation -/

/-- Each loop iteration of `process_file` increments exactly one line-class
counter and leaves `total_lines` alone. -/
theorem process_line_lineClassSum (rules : Muncher Rx) (st : Bool × Tech)
    (line : String) :
    lineClassSum (process_line rules st line).2 = lineClassSum st.2 + 1 ∧
    (process_line rules st line).2.total_lines = st.2.total_lines := by
  rcases st with ⟨inside, t⟩
  unfold process_line
  dsimp only
  split
  · split <;> simp [lineClassSum] <;> omega
  · split
    · split <;> simp [lineClassSum] <;> omega
    · split
      · simp [lineClassSum]; omega
      · split
        · simp [lineClassSum]; omega
        · split
          · simp [lineClassSum]; omega
          · split
            · simp [lineClassSum]; omega
            · split
              · simp [lineClassSum]; omega
              · simp [lineClassSum, Tech.count_refs, Tech.count_pkgs,
                  Tech.count_keywords]
                omega

/-- Over the whole loop the line-class counters gain exactly one per line. -/
theorem foldl_process_line_lineClassSum (rules : Muncher Rx)
    (lines : List String) (st : Bool × Tech) :
    lineClassSum (lines.foldl (process_line rules) st).2 =
      lineClassSum st.2 + lines.length ∧
    (lines.foldl (process_line rules) st).2.total_lines = st.2.total_lines := by
  induction lines generalizing st with
  | nil => exact ⟨rfl, rfl⟩
  | cons line rest ih =>
    have h1 := process_line_lineClassSum rules st line
    have h2 := ih (process_line rules st line)
    constructor
    · rw [List.foldl_cons, h2.1, h1.1, List.length_cons]; omega
    · rw [List.foldl_cons, h2.2, h1.2]

/-- `remove_local_imports` only filters `refs`; counters are untouched. -/
theorem remove_local_imports_counters (t : Tech)
    (all_tree_files : Option (List String)) :
    lineClassSum (t.remove_local_imports all_tree_files) = lineClassSum t ∧
    (t.remove_local_imports all_tree_files).total_lines = t.total_lines := by
  unfold Tech.remove_local_imports
  cases all_tree_files <;> exact ⟨rfl, rfl⟩

/-- The classified-and-postprocessed record of the main path of `process_file`
satisfies the conservation law whenever the starting record has all class
counters zero and `total_lines` set to the number of lines. -/
theorem processed_lines_conservation (rules : Muncher Rx) (lines : List String)
    (t0 : Tech) (all_tree_files : Option (List String))
    (h0 : lineClassSum t0 = 0) :
    (classifyLines rules t0 lines all_tree_files).total_lines =
      lineClassSum (classifyLines rules t0 lines all_tree_files) := by
  unfold classifyLines
  have hfold := foldl_process_line_lineClassSum rules lines
    (false, { t0 with total_lines := lines.length })
  have hrm := remove_local_imports_counters
    (lines.foldl (process_line rules)
      (false, { t0 with total_lines := lines.length })).2 all_tree_files
  rw [hrm.1, hrm.2, hfold.1, hfold.2]
  unfold lineClassSum at h0 ⊢
  dsimp only
  omega

/-- C2: every `Tech` produced by `process_file` satisfies
`total_lines = code_lines + blank_lines + bracket_only_lines + line_comments +
inline_comments + docs_comments + block_comments` — each decoded line
increments exactly one of the seven line-class counters. -/
theorem c2_total_lines_conservation (rules : Muncher Rx)
    (file_name blob_sha1 commit_sha1 : String) (commit_date_epoch : Int)
    (commit_date_iso : String) (decode : Bool → Option String)
    (all_tree_files : Option (List String)) (t : Tech)
    (h : process_file rules file_name blob_sha1 commit_sha1 commit_date_epoch
      commit_date_iso decode all_tree_files = Except.ok t) :
    t.total_lines = t.code_lines + t.blank_lines + t.bracket_only_lines +
      t.line_comments + t.inline_comments + t.docs_comments + t.block_comments := by
  show t.total_lines = lineClassSum t
  unfold process_file at h
  split at h
  · simp only [Except.ok.injEq] at h
    subst h
    rfl
  · split at h
    · simp only [Except.ok.injEq] at h
      subst h
      rfl
    · simp only [Except.ok.injEq] at h
      subst h
      exact processed_lines_conservation rules _ _ all_tree_files rfl

/-- Witness for C2 at a concrete two-line file. -/
theorem c2_total_lines_conservation_witness :
    c2wTech.total_lines = c2wTech.code_lines + c2wTech.blank_lines +
      c2wTech.bracket_only_lines + c2wTech.line_comments +
      c2wTech.inline_comments + c2wTech.docs_comments + c2wTech.block_comments :=
  c2_total_lines_conservation c2wRules "f.txt" "sha" "csha" 11 "iso" c2wDecode
    none c2wTech rfl

/-! ## C5 — block-comment boundary -/

/-- C5: outside a block comment, a line matching both `block_comments_start`
and `block_comments_end` increments `block_comments` exactly once, changes no
other field, and leaves the processor outside block-comment state. -/
theorem c5_block_comment_boundary (rules : Muncher Rx) (t : Tech)
    (line : String)
    (hs : match_line rules.block_comments_start_regex line = true)
    (he : match_line rules.block_comments_end_regex line = true) :
    process_line rules (false, t) line =
      (false, { t with block_comments := t.block_comments + 1 }) := by
  unfold process_line
  simp [hs, he]

/-- Witness for C5 on the line `"/* one liner */"`. -/
theorem c5_block_comment_boundary_witness :
    match_line c5wRules.block_comments_start_regex "/* one liner */" = true ∧
    match_line c5wRules.block_comments_end_regex "/* one liner */" = true ∧
    process_line c5wRules (false, c5wTech) "/* one liner */" =
      (false, { c5wTech with block_comments := c5wTech.block_comments + 1 }) :=
  ⟨by decide, by decide,
    c5_block_comment_boundary c5wRules c5wTech "/* one liner */"
      (by decide) (by decide)⟩

/-! ## C6 — empty and undecodable files -/

/-- C6: when the decoded contents are empty or both decodes fail, the result is
`Ok` with `files = 1`, zero `total_lines`, all seven line-class counters zero,
empty `keywords`/`refs`/`pkgs`, and the identity fields taken from the
arguments and the muncher. -/
theorem c6_empty_or_binary_file (rules : Muncher Rx)
    (file_name blob_sha1 commit_sha1 : String) (commit_date_epoch : Int)
    (commit_date_iso : String) (decode : Bool → Option String)
    (all_tree_files : Option (List String))
    (h : decode false = some "" ∨
      (decode false = none ∧ decode true = none) ∨
      (decode false = none ∧ decode true = some "")) :
    ∃ t, process_file rules file_name blob_sha1 commit_sha1 commit_date_epoch
        commit_date_iso decode all_tree_files = Except.ok t ∧
      t.files = 1 ∧ t.total_lines = 0 ∧ t.code_lines = 0 ∧ t.blank_lines = 0 ∧
      t.bracket_only_lines = 0 ∧ t.line_comments = 0 ∧ t.inline_comments = 0 ∧
      t.docs_comments = 0 ∧ t.block_comments = 0 ∧ t.keywords = [] ∧
      t.refs = [] ∧ t.pkgs = [] ∧ t.language = rules.language ∧
      t.muncher_name = rules.muncher_name ∧ t.file_name = some file_name ∧
      t.commit_sha1 = some commit_sha1 ∧
      t.commit_date_epoch = some commit_date_epoch ∧
      t.commit_date_iso = some commit_date_iso ∧
      t.muncher_hash = rules.muncher_hash := by
  refine ⟨blankTech rules file_name commit_sha1 commit_date_epoch commit_date_iso,
    ?_, rfl, rfl, rfl, rfl, rfl, rfl, rfl, rfl, rfl, rfl, rfl, rfl, rfl, rfl,
    rfl, rfl, rfl, rfl, rfl⟩
  have hres : (match get_file_lines decode false with
      | some v => some v
      | none => get_file_lines decode true) = none ∨
      (match get_file_lines decode false with
      | some v => some v
      | none => get_file_lines decode true) = some [] := by
    rcases h with h | ⟨h1, h2⟩ | ⟨h1, h2⟩
    · right
      unfold get_file_lines
      rw [h]
      rfl
    · left
      unfold get_file_lines
      rw [h1, h2]
    · right
      unfold get_file_lines
      rw [h1, h2]
      rfl
  unfold process_file
  rcases hres with hres | hres
  all_goals rw [hres]
  all_goals rfl

/-- Witness for C6 with a blob that fails both decodes. -/
theorem c6_empty_or_binary_file_witness :
    (c6wDecode false = none ∧ c6wDecode true = none) ∧
    ∃ t, process_file c2wRules "img.png" "sha" "csha" 5 "iso" c6wDecode none =
        Except.ok t ∧
      t.files = 1 ∧ t.total_lines = 0 ∧ t.code_lines = 0 ∧ t.blank_lines = 0 ∧
      t.bracket_only_lines = 0 ∧ t.line_comments = 0 ∧ t.inline_comments = 0 ∧
      t.docs_comments = 0 ∧ t.block_comments = 0 ∧ t.keywords = [] ∧
      t.refs = [] ∧ t.pkgs = [] ∧ t.language = c2wRules.language ∧
      t.muncher_name = c2wRules.muncher_name ∧ t.file_name = some "img.png" ∧
      t.commit_sha1 = some "csha" ∧ t.commit_date_epoch = some 5 ∧
      t.commit_date_iso = some "iso" ∧ t.muncher_hash = c2wRules.muncher_hash :=
  ⟨⟨rfl, rfl⟩,
    c6_empty_or_binary_file c2wRules "img.png" "sha" "csha" 5 "iso" c6wDecode
      none (Or.inr (Or.inl ⟨rfl, rfl⟩))⟩

end Stm
